import Mathlib

/-!
Verification of the goauditparser record-to-table parsing engine.

This file gives a shallow embedding, in Lean 4, of the parts of the
goauditparser source (auditparser.go, timeliner.go) that the verified
properties are about: the timestamp normalizer, the row-accumulator
functions shared by the three audit dialects, the dialect detector, the
column schema assembler, the per-file status cache, and the
Excel-friendly cell truncation.  Go strings are modelled as Lean
`String` values (indexing and lengths are per character; the audit data
the program handles is ASCII, where Go's byte indexing coincides), Go
maps are modelled as association lists in insertion order, and Go's
`int` as `Nat`/`Int` as appropriate.  Each definition is translated
directly from the named Go function.
-/

namespace GoAuditParser

/-! ### Character-level string utilities -/

/-- Character-level model of Go `strings.HasPrefix`. -/
def strStartsWith (s pat : String) : Bool :=
  pat.data.isPrefixOf s.data

/-- Character-level model of Go `strings.HasSuffix`. -/
def strEndsWith (s pat : String) : Bool :=
  pat.data.isSuffixOf s.data

/-- Helper for `strContains`: does `p` occur as a contiguous run in `l`? -/
def listContainsSeq (l p : List Char) : Bool :=
  p.isPrefixOf l ||
    match l with
    | [] => false
    | _ :: t => listContainsSeq t p

/-- Character-level model of Go `strings.Contains`. -/
def strContains (s pat : String) : Bool :=
  listContainsSeq s.data pat.data

/-- ASCII lower-casing of one character, as Go `strings.ToLower` does on the
ASCII audit data. -/
def lowerChar (c : Char) : Char :=
  if 'A' ≤ c && c ≤ 'Z' then Char.ofNat (c.toNat + 32) else c

/-- Character-level model of Go `strings.ToLower` (ASCII range). -/
def strToLower (s : String) : String :=
  ⟨s.data.map lowerChar⟩

/-- Whitespace test used by the model of Go `strings.TrimSpace`. -/
def isSpaceChar (c : Char) : Bool :=
  c = ' ' || c = '\t' || c = '\n' || c = '\r'

/-- Character-level model of Go `strings.TrimSpace`. -/
def strTrim (s : String) : String :=
  ⟨((s.data.dropWhile isSpaceChar).reverse.dropWhile isSpaceChar).reverse⟩

/-- Model of `UpperCamelCase` (src/unnamed/part_002): upper-case the first
character, keep the rest. -/
def UpperCamelCase (s : String) : String :=
  match s.data with
  | [] => ""
  | c :: rest => ⟨(if 'a' ≤ c && c ≤ 'z' then Char.ofNat (c.toNat - 32) else c) :: rest⟩

/-! ### The timestamp normalizer `parse_time` (auditparser.go:2157-2168) -/

/-- Guard of the first branch of `parse_time`: length 23 or 24 with `-` at
offsets 4 and 7, `:` at 13 and 16 and `.` at 19 — the fixed-width
fractional-seconds timestamp shape (the trailing `Z` is optional and is not
inspected). -/
def timeGuardFrac (cs : List Char) : Bool :=
  (cs.length == 23 || cs.length == 24) &&
    cs.getD 4 ' ' == '-' && cs.getD 7 ' ' == '-' &&
    cs.getD 13 ' ' == ':' && cs.getD 16 ' ' == ':' && cs.getD 19 ' ' == '.'

/-- Guard of the second branch of `parse_time`: length 19 or 20 with `-` at
offsets 4 and 7 and `:` at 13 and 16 — the fixed-width whole-second
timestamp shape. -/
def timeGuardPlain (cs : List Char) : Bool :=
  (cs.length == 19 || cs.length == 20) &&
    cs.getD 4 ' ' == '-' && cs.getD 7 ' ' == '-' &&
    cs.getD 13 ' ' == ':' && cs.getD 16 ' ' == ':'

/-- Model of `parse_time` (auditparser.go:2157-2168).  Go's byte slices
`timevalue[0:10]`, `timevalue[11:23]` and `timevalue[11:19]` become
`take`/`drop` on the character list. -/
def parse_time (t : String) : String :=
  let cs := t.data
  if timeGuardFrac cs then ⟨cs.take 10⟩ ++ " " ++ ⟨(cs.drop 11).take 12⟩
  else if timeGuardPlain cs then ⟨cs.take 10⟩ ++ " " ++ ⟨(cs.drop 11).take 8⟩
  else t

/-- Bounds-checked evaluation of the first guard of `parse_time`: every
character read is performed through `getElem?` and aborts with `none` if out
of range, mirroring Go's panic on out-of-range indexing; the short-circuit
order of Go's `&&` is kept, so an index is read only after the length test
has succeeded and the previous comparisons returned true. -/
def timeGuardFracChecked (cs : List Char) : Option Bool :=
  if cs.length == 23 || cs.length == 24 then do
    let c4 ← cs[4]?
    if c4 ≠ '-' then return false else do
    let c7 ← cs[7]?
    if c7 ≠ '-' then return false else do
    let c13 ← cs[13]?
    if c13 ≠ ':' then return false else do
    let c16 ← cs[16]?
    if c16 ≠ ':' then return false else do
    let c19 ← cs[19]?
    return (c19 == '.')
  else return false

/-- Bounds-checked evaluation of the second guard of `parse_time`. -/
def timeGuardPlainChecked (cs : List Char) : Option Bool :=
  if cs.length == 19 || cs.length == 20 then do
    let c4 ← cs[4]?
    if c4 ≠ '-' then return false else do
    let c7 ← cs[7]?
    if c7 ≠ '-' then return false else do
    let c13 ← cs[13]?
    if c13 ≠ ':' then return false else do
    let c16 ← cs[16]?
    return (c16 == ':')
  else return false

/-- Bounds-checked `parse_time`: all character reads and both slicing
operations are checked, returning `none` where the Go original would panic
with an index-out-of-range error. -/
def parse_time_checked (t : String) : Option String := do
  let cs := t.data
  let g1 ← timeGuardFracChecked cs
  if g1 then
    if 23 ≤ cs.length then return ⟨cs.take 10⟩ ++ " " ++ ⟨(cs.drop 11).take 12⟩
    else none
  else
    let g2 ← timeGuardPlainChecked cs
    if g2 then
      if 19 ≤ cs.length then return ⟨cs.take 10⟩ ++ " " ++ ⟨(cs.drop 11).take 8⟩
      else none
    else return t

/-! ### Options and the newline-flattening transform -/

/-- The fields of the Go `Options` structure that the embedded functions
consult. -/
structure Options where
  ReplaceNewLineFeeds : Bool
  ExcelFriendly : Bool
  ForceReparse : Bool
  WipeOutput : Bool
deriving DecidableEq

/-- One pass replacing each `"\r\n"` pair by `'|'`, as the first
`strings.Replace` call does (left-to-right, non-overlapping). -/
def replaceCRLF : List Char → List Char
  | '\r' :: '\n' :: rest => '|' :: replaceCRLF rest
  | c :: rest => c :: replaceCRLF rest
  | [] => []

/-- The three sequential `strings.Replace` calls of the add-value functions
(auditparser.go:2075-2080, 2113-2118): `"\r\n"`, then `"\n"`, then `"\r"`,
each replaced by `"|"`.  After the pair replacement the two single-character
replacements are a character map. -/
def replaceNewLineFeeds (s : String) : String :=
  ⟨(replaceCRLF s.data).map fun c => if c = '\n' || c = '\r' then '|' else c⟩

/-- The value transform applied by `add_value_to_row_normal` and
`add_value_to_row_eventbuffer` before storing: timestamp normalization, then
optional newline flattening. -/
def transformValue (opts : Options) (v : String) : String :=
  let v := parse_time v
  if opts.ReplaceNewLineFeeds then replaceNewLineFeeds v else v

/-! ### Header tables and rows

The Go `headers map[string]int` is modelled as an association list in
insertion order; the Go `row map[int]*strings.Builder` as an association
list from column id to accumulated string. -/

/-- A header table: column name paired with its assigned column id. -/
abbrev Headers := List (String × Nat)

/-- Lookup of a column name in a header table (Go map read). -/
def lookupH : Headers → String → Option Nat
  | [], _ => none
  | (k, v) :: t, h => if k = h then some v else lookupH t h

/-- The header-discovery step shared by both add-value functions
(auditparser.go:2082-2088, 2120-2126): an existing name keeps its id, a new
name is assigned `len(headers)` as its id. -/
def addHeader (hs : Headers) (h : String) : Nat × Headers :=
  match lookupH hs h with
  | some cid => (cid, hs)
  | none => (hs.length, hs ++ [(h, hs.length)])

/-- A row under construction in the normal dialect: column id to value. -/
abbrev Row := List (Nat × String)

/-- Lookup of a column id in a row (Go map read). -/
def lookupRow : Row → Nat → Option String
  | [], _ => none
  | (k, v) :: t, cid => if k = cid then some v else lookupRow t cid

/-- In-place update of a row cell (Go map write to an existing key). -/
def updateRow : Row → Nat → String → Row
  | [], _, _ => []
  | (k, w) :: t, cid, v =>
      if k = cid then (k, v) :: updateRow t cid v else (k, w) :: updateRow t cid v

/-- The separator prefixed to a re-encountered field's value
(auditparser.go:2093-2099): `"|"` when newline flattening is on, `"\r\n"`
otherwise. -/
def joinSeparator (opts : Options) : String :=
  if opts.ReplaceNewLineFeeds then "|" else "\r\n"

/-- Model of `add_value_to_row_normal` (auditparser.go:2060-2105).  The Go
function mutates `headers` and `row` through references; the model returns
both. -/
def add_value_to_row_normal (header value : String) (headerPathParts : List String)
    (headers : Headers) (row : Row) (options : Options)
    (existingGetsNewLine include_value : Bool) : Headers × Row :=
  if !include_value then (headers, row)
  else
    let header :=
      if headerPathParts.length > 0 then
        String.intercalate "." headerPathParts ++ "." ++ header
      else header
    let value := transformValue options value
    let (colID, headers) := addHeader headers header
    match lookupRow row colID with
    | some existing =>
        let value := if existingGetsNewLine then joinSeparator options ++ value else value
        (headers, updateRow row colID (existing ++ value))
    | none => (headers, row ++ [(colID, value)])

/-- The `RowValue` struct of the event-buffer dialects. -/
structure RowValue where
  colid : Nat
  value : String
deriving DecidableEq

/-- The scan-and-append loop of `add_value_to_row_eventbuffer`
(auditparser.go:2128-2151): the first entry with the same column id gets the
(possibly separator-prefixed) value appended; otherwise a new entry is
appended at the end. -/
def appendEBValue (opts : Options) (egnl : Bool) (colID : Nat) (value : String) :
    List RowValue → List RowValue
  | [] => [⟨colID, value⟩]
  | rv :: rest =>
      if rv.colid = colID then
        let value := if egnl then joinSeparator opts ++ value else value
        ⟨rv.colid, rv.value ++ value⟩ :: rest
      else rv :: appendEBValue opts egnl colID value rest

/-- Model of `add_value_to_row_eventbuffer` (auditparser.go:2107-2154),
also used by the StateAgentInspector dialect. -/
def add_value_to_row_eventbuffer (header value : String) (headers : Headers)
    (row : List RowValue) (options : Options) (existingValueGetsNewLine : Bool) :
    Headers × List RowValue :=
  let value := transformValue options value
  let (colID, headers) := addHeader headers header
  (headers, appendEBValue options existingValueGetsNewLine colID value row)

/-- First-occurrence lookup in an event-buffer row, as the linear scans of
the source perform it. -/
def lookupEB : List RowValue → Nat → Option String
  | [], _ => none
  | rv :: t, cid => if rv.colid = cid then some rv.value else lookupEB t cid

theorem lookupRow_updateRow_self {row : Row} {cid : Nat} {old v : String}
    (h : lookupRow row cid = some old) :
    lookupRow (updateRow row cid v) cid = some v := by
  induction row with
  | nil => simp [lookupRow] at h
  | cons p t ih =>
      obtain ⟨k, w⟩ := p
      by_cases hk : k = cid
      · subst hk
        simp [lookupRow, updateRow]
      · simp only [lookupRow, if_neg hk] at h
        simp [lookupRow, updateRow, hk, ih h]

theorem lookupRow_updateRow_ne {row : Row} {cid c : Nat} {v : String}
    (hc : c ≠ cid) :
    lookupRow (updateRow row cid v) c = lookupRow row c := by
  induction row with
  | nil => simp [updateRow]
  | cons p t ih =>
      obtain ⟨k, w⟩ := p
      by_cases hk : k = cid
      · subst hk
        have hkc : k ≠ c := fun h => hc h.symm
        simp [lookupRow, updateRow, hkc, ih]
      · by_cases hkc : k = c
        · simp [lookupRow, updateRow, hk, hkc, hc]
        · simp [lookupRow, updateRow, hk, hkc, ih]

theorem length_updateRow (row : Row) (cid : Nat) (v : String) :
    (updateRow row cid v).length = row.length := by
  induction row with
  | nil => simp [updateRow]
  | cons p t ih =>
      obtain ⟨k, w⟩ := p
      by_cases hk : k = cid <;> simp [updateRow, hk, ih]

theorem lookupEB_appendEBValue_found {row : List RowValue} {cid : Nat} {old : String}
    (opts : Options) (egnl : Bool) (v : String) (h : lookupEB row cid = some old) :
    lookupEB (appendEBValue opts egnl cid v row) cid =
      some (old ++ (if egnl then joinSeparator opts ++ v else v)) := by
  induction row with
  | nil => simp [lookupEB] at h
  | cons rv t ih =>
      by_cases hk : rv.colid = cid
      · simp only [lookupEB, if_pos hk] at h
        cases h
        simp [appendEBValue, lookupEB, hk]
      · simp only [lookupEB, if_neg hk] at h
        simp [appendEBValue, lookupEB, hk, ih h]

theorem lookupEB_appendEBValue_ne {row : List RowValue} {cid c : Nat} {v : String}
    (opts : Options) (egnl : Bool) (hc : c ≠ cid) :
    lookupEB (appendEBValue opts egnl cid v row) c = lookupEB row c := by
  induction row with
  | nil => simp [appendEBValue, lookupEB, Ne.symm hc]
  | cons rv t ih =>
      by_cases hk : rv.colid = cid
      · simp [appendEBValue, lookupEB, hk, Ne.symm hc]
      · by_cases hkc : rv.colid = c
        · simp [appendEBValue, lookupEB, hk, hkc, hc]
        · simp [appendEBValue, lookupEB, hk, hkc, ih]

theorem length_appendEBValue_found {row : List RowValue} {cid : Nat} {old : String}
    (opts : Options) (egnl : Bool) (v : String) (h : lookupEB row cid = some old) :
    (appendEBValue opts egnl cid v row).length = row.length := by
  induction row with
  | nil => simp [lookupEB] at h
  | cons rv t ih =>
      by_cases hk : rv.colid = cid
      · simp [appendEBValue, hk]
      · simp only [lookupEB, if_neg hk] at h
        simp [appendEBValue, hk, ih h]

/-- C1: in every dialect, a field re-encountered for an open record (its
column id already has a cell in the current row, and the add-value function
is invoked as a new field occurrence, i.e. with `existingGetsNewLine =
true`) has its new value appended to the existing cell, prefixed by
`joinSeparator` — `"\r\n"` by default, `"|"` under the replace-newline-feeds
option — never as a second cell (row size unchanged) and never overwriting
the old value; a record with the same field twice, values `"a"` then `"b"`,
yields the single cell `"a\r\nb"` (default) or `"a|b"` (flatten option). -/
theorem multi_value_join_policy
    (opts : Options) (hdr v oldN oldE : String) (path : List String)
    (hs : Headers) (row : Row) (ebrow : List RowValue) (cid ebcid : Nat)
    (hlook : lookupH hs
      (if path.length > 0 then String.intercalate "." path ++ "." ++ hdr else hdr) = some cid)
    (holdN : lookupRow row cid = some oldN)
    (heb : lookupH hs hdr = some ebcid)
    (holdE : lookupEB ebrow ebcid = some oldE) :
    add_value_to_row_normal hdr v path hs row opts true true =
      (hs, updateRow row cid (oldN ++ (joinSeparator opts ++ transformValue opts v))) ∧
    lookupRow (add_value_to_row_normal hdr v path hs row opts true true).2 cid =
      some (oldN ++ (joinSeparator opts ++ transformValue opts v)) ∧
    (add_value_to_row_normal hdr v path hs row opts true true).2.length = row.length ∧
    (∀ c, c ≠ cid →
      lookupRow (add_value_to_row_normal hdr v path hs row opts true true).2 c =
        lookupRow row c) ∧
    add_value_to_row_eventbuffer hdr v hs ebrow opts true =
      (hs, appendEBValue opts true ebcid (transformValue opts v) ebrow) ∧
    lookupEB (add_value_to_row_eventbuffer hdr v hs ebrow opts true).2 ebcid =
      some (oldE ++ (joinSeparator opts ++ transformValue opts v)) ∧
    (add_value_to_row_eventbuffer hdr v hs ebrow opts true).2.length = ebrow.length ∧
    (∀ c, c ≠ ebcid →
      lookupEB (add_value_to_row_eventbuffer hdr v hs ebrow opts true).2 c =
        lookupEB ebrow c) ∧
    joinSeparator ⟨false, false, false, false⟩ = "\r\n" ∧
    joinSeparator ⟨true, false, false, false⟩ = "|" ∧
    (add_value_to_row_normal "A" "b" []
        (add_value_to_row_normal "A" "a" [] [] [] ⟨false, false, false, false⟩ true true).1
        (add_value_to_row_normal "A" "a" [] [] [] ⟨false, false, false, false⟩ true true).2
        ⟨false, false, false, false⟩ true true).2 = [(0, "a\r\nb")] ∧
    (add_value_to_row_normal "A" "b" []
        (add_value_to_row_normal "A" "a" [] [] [] ⟨true, false, false, false⟩ true true).1
        (add_value_to_row_normal "A" "a" [] [] [] ⟨true, false, false, false⟩ true true).2
        ⟨true, false, false, false⟩ true true).2 = [(0, "a|b")] := by
  have h1 : add_value_to_row_normal hdr v path hs row opts true true =
      (hs, updateRow row cid (oldN ++ (joinSeparator opts ++ transformValue opts v))) := by
    simp only [add_value_to_row_normal, addHeader, hlook, holdN, Bool.not_true,
      Bool.false_eq_true, if_false, if_true]
  have h5 : add_value_to_row_eventbuffer hdr v hs ebrow opts true =
      (hs, appendEBValue opts true ebcid (transformValue opts v) ebrow) := by
    simp only [add_value_to_row_eventbuffer, addHeader, heb]
  refine ⟨h1, ?_, ?_, ?_, h5, ?_, ?_, ?_, by decide, by decide, by decide, by decide⟩
  · rw [h1]
    exact lookupRow_updateRow_self holdN
  · rw [h1]
    exact length_updateRow row cid _
  · intro c hcne
    rw [h1]
    exact lookupRow_updateRow_ne hcne
  · rw [h5]
    have := lookupEB_appendEBValue_found opts true (transformValue opts v) holdE
    simpa using this
  · rw [h5]
    exact length_appendEBValue_found opts true _ holdE
  · intro c hcne
    rw [h5]
    exact lookupEB_appendEBValue_ne opts true hcne

/-- Witness for C1: the join policy applied at a concrete re-encountered
field with the default options. -/
theorem multi_value_join_policy_witness :
    add_value_to_row_normal "A" "b" [] [("A", 0)] [(0, "a")]
        ⟨false, false, false, false⟩ true true =
      ([("A", 0)], updateRow [(0, "a")] 0
        ("a" ++ (joinSeparator ⟨false, false, false, false⟩ ++
          transformValue ⟨false, false, false, false⟩ "b"))) :=
  (multi_value_join_policy ⟨false, false, false, false⟩ "A" "b" "a" "a" []
    [("A", 0)] [(0, "a")] [⟨0, "a"⟩] 0 0
    (by decide) (by decide) (by decide) (by decide)).1

/-! ### Header-table invariants (claims about id assignment)

A header table is well formed when its ids, read in insertion order, are
exactly `0, 1, ..., n-1` and its column names are pairwise distinct.  This
is precisely the state the Go `headers map[string]int` maps are kept in by
the `colID = len(headers)` assignment discipline. -/

/-- Well-formedness of a header table. -/
def headersWF (hs : Headers) : Prop :=
  hs.map Prod.snd = List.range hs.length ∧ (hs.map Prod.fst).Nodup

instance (hs : Headers) : Decidable (headersWF hs) := by
  unfold headersWF
  infer_instance

theorem lookupH_eq_none_iff {hs : Headers} {h : String} :
    lookupH hs h = none ↔ h ∉ hs.map Prod.fst := by
  induction hs with
  | nil => simp [lookupH]
  | cons p t ih =>
      obtain ⟨k, w⟩ := p
      by_cases hk : k = h
      · simp [lookupH, hk]
      · simp [lookupH, hk, ih, Ne.symm hk]

theorem lookupH_mem_snd {hs : Headers} {h : String} {cid : Nat}
    (hl : lookupH hs h = some cid) : cid ∈ hs.map Prod.snd := by
  induction hs with
  | nil => simp [lookupH] at hl
  | cons p t ih =>
      obtain ⟨k, w⟩ := p
      by_cases hk : k = h
      · simp only [lookupH, if_pos hk] at hl
        cases hl
        simp
      · simp only [lookupH, if_neg hk] at hl
        simpa using Or.inr (ih hl)

theorem lookupH_lt_length {hs : Headers} {h : String} {cid : Nat}
    (hwf : headersWF hs) (hl : lookupH hs h = some cid) : cid < hs.length := by
  have := lookupH_mem_snd hl
  rw [hwf.1] at this
  exact List.mem_range.mp this

theorem lookupH_append_left {hs : Headers} {h : String} {cid : Nat}
    (hl : lookupH hs h = some cid) (ext : Headers) :
    lookupH (hs ++ ext) h = some cid := by
  induction hs with
  | nil => simp [lookupH] at hl
  | cons p t ih =>
      obtain ⟨k, w⟩ := p
      by_cases hk : k = h
      · simp only [lookupH, if_pos hk] at hl
        simp [lookupH, hk, hl]
      · simp only [lookupH, if_neg hk] at hl
        simp [lookupH, hk, ih hl]

theorem lookupH_of_prefix {hs hs' : Headers} {h : String} {cid : Nat}
    (hpre : hs <+: hs') (hl : lookupH hs h = some cid) :
    lookupH hs' h = some cid := by
  obtain ⟨t, rfl⟩ := hpre
  exact lookupH_append_left hl t

/-- Discovery of a fresh column extends a well-formed table by exactly the
next unused id. -/
theorem addHeader_fresh {hs : Headers} {h : String}
    (hnew : lookupH hs h = none) :
    addHeader hs h = (hs.length, hs ++ [(h, hs.length)]) := by
  simp [addHeader, hnew]

/-- An already-known column keeps its id and leaves the table untouched. -/
theorem addHeader_known {hs : Headers} {h : String} {cid : Nat}
    (hl : lookupH hs h = some cid) :
    addHeader hs h = (cid, hs) := by
  simp [addHeader, hl]

theorem headersWF_addHeader {hs : Headers} (h : String) (hwf : headersWF hs) :
    headersWF (addHeader hs h).2 ∧ hs <+: (addHeader hs h).2 ∧
      (addHeader hs h).1 < (addHeader hs h).2.length := by
  rcases hnew : lookupH hs h with _ | cid
  · rw [addHeader_fresh hnew]
    refine ⟨⟨?_, ?_⟩, ⟨_, rfl⟩, ?_⟩
    · simp [List.range_succ, hwf.1]
    · have hmem : h ∉ hs.map Prod.fst := lookupH_eq_none_iff.mp hnew
      simp [List.nodup_append, hwf.2, hmem]
    · simp
  · rw [addHeader_known hnew]
    exact ⟨hwf, ⟨[], List.append_nil hs⟩, lookupH_lt_length hwf hnew⟩

/-! ### Parse-state traces for the normal and event-buffer dialects -/

/-- One accumulator action of the normal-dialect state machine: a field
occurrence handed to `add_value_to_row_normal`, or a record close (the row
is moved into the accumulated row set, auditparser.go:744-780). -/
inductive NormalOp
  | field (header value : String) (path : List String) (egnl incl : Bool)
  | closeRecord
deriving DecidableEq

/-- The accumulator state of one normal-dialect parse. -/
structure NormalState where
  headers : Headers
  rows : List Row
  row : Row
deriving DecidableEq

/-- One step of the normal-dialect accumulator. -/
def stepNormal (opts : Options) (s : NormalState) : NormalOp → NormalState
  | .field h v path egnl incl =>
      let r := add_value_to_row_normal h v path s.headers s.row opts egnl incl
      { headers := r.1, rows := s.rows, row := r.2 }
  | .closeRecord => { headers := s.headers, rows := s.rows ++ [s.row], row := [] }

/-- A whole trace of accumulator actions. -/
def runNormal (opts : Options) (s : NormalState) : List NormalOp → NormalState
  | [] => s
  | op :: ops => runNormal opts (stepNormal opts s op) ops

/-- Every column id referenced by a row is below the header-table size. -/
def rowBounded (n : Nat) (r : Row) : Prop := ∀ p ∈ r, p.1 < n

instance (n : Nat) (r : Row) : Decidable (rowBounded n r) := by
  unfold rowBounded
  infer_instance

/-- The normal-dialect accumulator invariant. -/
def normalInv (s : NormalState) : Prop :=
  headersWF s.headers ∧ (∀ r ∈ s.rows, rowBounded s.headers.length r) ∧
    rowBounded s.headers.length s.row

instance (s : NormalState) : Decidable (normalInv s) := by
  unfold normalInv
  infer_instance

theorem rowBounded_mono {n m : Nat} {r : Row} (hnm : n ≤ m)
    (h : rowBounded n r) : rowBounded m r :=
  fun p hp => lt_of_lt_of_le (h p hp) hnm

theorem rowBounded_updateRow {n : Nat} {r : Row} {cid : Nat} {v : String}
    (h : rowBounded n r) : rowBounded n (updateRow r cid v) := by
  induction r with
  | nil => simp [updateRow, rowBounded]
  | cons p t ih =>
      obtain ⟨k, w⟩ := p
      have hk' := h (k, w) (by simp)
      have ht : rowBounded n t := fun q hq => h q (by simp [hq])
      intro q hq
      by_cases hk : k = cid
      · rw [updateRow, if_pos hk] at hq
        rcases List.mem_cons.mp hq with hq | hq
        · subst hq
          exact hk'
        · exact ih ht q hq
      · rw [updateRow, if_neg hk] at hq
        rcases List.mem_cons.mp hq with hq | hq
        · subst hq
          exact hk'
        · exact ih ht q hq

theorem add_value_normal_preserves (opts : Options) (h v : String)
    (path : List String) (egnl incl : Bool) {hs : Headers} {row : Row}
    (hwf : headersWF hs) (hb : rowBounded hs.length row) :
    headersWF (add_value_to_row_normal h v path hs row opts egnl incl).1 ∧
      hs <+: (add_value_to_row_normal h v path hs row opts egnl incl).1 ∧
      rowBounded (add_value_to_row_normal h v path hs row opts egnl incl).1.length
        (add_value_to_row_normal h v path hs row opts egnl incl).2 := by
  rcases hincl : incl with _ | _
  · have hid : add_value_to_row_normal h v path hs row opts egnl false = (hs, row) := by
      simp [add_value_to_row_normal]
    rw [hid]
    exact ⟨hwf, ⟨[], List.append_nil hs⟩, hb⟩
  · rw [add_value_to_row_normal]
    simp only [Bool.not_true, Bool.false_eq_true, if_false]
    set hdr := if path.length > 0 then String.intercalate "." path ++ "." ++ h else h with hhdr
    obtain ⟨hwf', hpre', hlt'⟩ := headersWF_addHeader hdr hwf
    have hlen : hs.length ≤ (addHeader hs hdr).2.length := hpre'.length_le
    rcases hadd : addHeader hs hdr with ⟨cid, hs'⟩
    rw [hadd] at hwf' hpre' hlt' hlen
    rcases hrow : lookupRow row cid with _ | old
    · refine ⟨hwf', hpre', ?_⟩
      intro p hp
      rcases List.mem_append.mp hp with hp | hp
      · exact rowBounded_mono hlen hb p hp
      · rcases List.mem_singleton.mp hp with rfl
        exact hlt'
    · exact ⟨hwf', hpre', rowBounded_updateRow (rowBounded_mono hlen hb)⟩

theorem runNormal_preserves (opts : Options) (ops : List NormalOp)
    {s : NormalState} (hinv : normalInv s) :
    normalInv (runNormal opts s ops) ∧ s.headers <+: (runNormal opts s ops).headers := by
  induction ops generalizing s with
  | nil => exact ⟨hinv, ⟨[], List.append_nil _⟩⟩
  | cons op ops ih =>
      have hstep : normalInv (stepNormal opts s op) ∧
          s.headers <+: (stepNormal opts s op).headers := by
        rcases op with ⟨h, v, path, egnl, incl⟩ | _
        · obtain ⟨hwf', hpre', hb'⟩ :=
            add_value_normal_preserves opts h v path egnl incl hinv.1 hinv.2.2
          refine ⟨⟨hwf', ?_, hb'⟩, hpre'⟩
          intro r hr
          exact rowBounded_mono hpre'.length_le (hinv.2.1 r hr)
        · show normalInv ⟨s.headers, s.rows ++ [s.row], []⟩ ∧ s.headers <+: s.headers
          refine ⟨⟨hinv.1, ?_, ?_⟩, ⟨[], List.append_nil _⟩⟩
          · intro r hr
            rcases List.mem_append.mp hr with hr | hr
            · exact hinv.2.1 r hr
            · rcases List.mem_singleton.mp hr with rfl
              exact hinv.2.2
          · intro p hp
            simp at hp
      obtain ⟨hinv', hpre'⟩ := ih hstep.1
      exact ⟨hinv', hstep.2.trans hpre'⟩

/-- One accumulator action of the event-buffer / state-agent-inspector
state machine. -/
inductive EBOp
  | field (header value : String) (egnl : Bool)
  | closeEvent
deriving DecidableEq

/-- The accumulator state of one event type's table in the event-buffer
dialects. -/
structure EBState where
  headers : Headers
  rows : List (List RowValue)
  row : List RowValue
deriving DecidableEq

/-- One step of the event-buffer accumulator. -/
def stepEB (opts : Options) (s : EBState) : EBOp → EBState
  | .field h v egnl =>
      let r := add_value_to_row_eventbuffer h v s.headers s.row opts egnl
      { headers := r.1, rows := s.rows, row := r.2 }
  | .closeEvent => { headers := s.headers, rows := s.rows ++ [s.row], row := [] }

/-- A whole trace of event-buffer accumulator actions. -/
def runEB (opts : Options) (s : EBState) : List EBOp → EBState
  | [] => s
  | op :: ops => runEB opts (stepEB opts s op) ops

/-- Every column id referenced by an event-buffer row is below the
header-table size. -/
def ebRowBounded (n : Nat) (r : List RowValue) : Prop := ∀ rv ∈ r, rv.colid < n

instance (n : Nat) (r : List RowValue) : Decidable (ebRowBounded n r) := by
  unfold ebRowBounded
  infer_instance

/-- The event-buffer accumulator invariant. -/
def ebInv (s : EBState) : Prop :=
  headersWF s.headers ∧ (∀ r ∈ s.rows, ebRowBounded s.headers.length r) ∧
    ebRowBounded s.headers.length s.row

instance (s : EBState) : Decidable (ebInv s) := by
  unfold ebInv
  infer_instance

theorem ebRowBounded_mono {n m : Nat} {r : List RowValue} (hnm : n ≤ m)
    (h : ebRowBounded n r) : ebRowBounded m r :=
  fun rv hrv => lt_of_lt_of_le (h rv hrv) hnm

theorem ebRowBounded_appendEBValue {n : Nat} {r : List RowValue} {cid : Nat}
    (opts : Options) (egnl : Bool) (v : String) (hcid : cid < n)
    (h : ebRowBounded n r) : ebRowBounded n (appendEBValue opts egnl cid v r) := by
  induction r with
  | nil =>
      intro rv hrv
      rcases List.mem_singleton.mp hrv with rfl
      exact hcid
  | cons rv0 t ih =>
      have h0 := h rv0 (by simp)
      have ht : ebRowBounded n t := fun q hq => h q (by simp [hq])
      intro rv hrv
      by_cases hk : rv0.colid = cid
      · rw [appendEBValue, if_pos hk] at hrv
        rcases List.mem_cons.mp hrv with hrv | hrv
        · subst hrv
          exact h0
        · exact ht rv hrv
      · rw [appendEBValue, if_neg hk] at hrv
        rcases List.mem_cons.mp hrv with hrv | hrv
        · subst hrv
          exact h0
        · exact ih ht rv hrv

theorem add_value_eb_preserves (opts : Options) (h v : String) (egnl : Bool)
    {hs : Headers} {row : List RowValue}
    (hwf : headersWF hs) (hb : ebRowBounded hs.length row) :
    headersWF (add_value_to_row_eventbuffer h v hs row opts egnl).1 ∧
      hs <+: (add_value_to_row_eventbuffer h v hs row opts egnl).1 ∧
      ebRowBounded (add_value_to_row_eventbuffer h v hs row opts egnl).1.length
        (add_value_to_row_eventbuffer h v hs row opts egnl).2 := by
  rw [add_value_to_row_eventbuffer]
  obtain ⟨hwf', hpre', hlt'⟩ := headersWF_addHeader h hwf
  have hlen : hs.length ≤ (addHeader hs h).2.length := hpre'.length_le
  rcases hadd : addHeader hs h with ⟨cid, hs'⟩
  rw [hadd] at hwf' hpre' hlt' hlen
  exact ⟨hwf', hpre',
    ebRowBounded_appendEBValue opts egnl _ hlt' (ebRowBounded_mono hlen hb)⟩

theorem runEB_preserves (opts : Options) (ops : List EBOp)
    {s : EBState} (hinv : ebInv s) :
    ebInv (runEB opts s ops) ∧ s.headers <+: (runEB opts s ops).headers := by
  induction ops generalizing s with
  | nil => exact ⟨hinv, ⟨[], List.append_nil _⟩⟩
  | cons op ops ih =>
      have hstep : ebInv (stepEB opts s op) ∧
          s.headers <+: (stepEB opts s op).headers := by
        rcases op with ⟨h, v, egnl⟩ | _
        · obtain ⟨hwf', hpre', hb'⟩ := add_value_eb_preserves opts h v egnl hinv.1 hinv.2.2
          refine ⟨⟨hwf', ?_, hb'⟩, hpre'⟩
          intro r hr
          exact ebRowBounded_mono hpre'.length_le (hinv.2.1 r hr)
        · show ebInv ⟨s.headers, s.rows ++ [s.row], []⟩ ∧ s.headers <+: s.headers
          refine ⟨⟨hinv.1, ?_, ?_⟩, ⟨[], List.append_nil _⟩⟩
          · intro r hr
            rcases List.mem_append.mp hr with hr | hr
            · exact hinv.2.1 r hr
            · rcases List.mem_singleton.mp hr with rfl
              exact hinv.2.2
          · intro rv hrv
            simp at hrv
      obtain ⟨hinv', hpre'⟩ := ih hstep.1
      exact ⟨hinv', hstep.2.trans hpre'⟩

theorem count_snd_eq_one {hs : Headers} (hwf : headersWF hs) {cid : Nat}
    (hcid : cid < hs.length) : (hs.map Prod.snd).count cid = 1 := by
  rw [hwf.1]
  exact List.count_eq_one_of_mem (List.nodup_range _) (List.mem_range.mpr hcid)

/-- C2: within one header table every column name keeps a single id for the
whole parse: a fresh column receives the next unused id `len(headers)` (so
insertion order is first-seen order and the ids are `0..n-1`), a known
column keeps its id, the table before any trace of accumulator actions is a
prefix of the table after it (ids are never reused or reassigned), and
every column id referenced by any accumulated row occurs in the table's id
sequence exactly once — in the normal dialect and in the per-event-type
tables of the EventBuffer/StateAgentInspector dialects alike. -/
theorem header_table_id_invariants
    (opts : Options) (s : NormalState) (ops : List NormalOp)
    (t : EBState) (ebops : List EBOp)
    (hs0 : normalInv s) (ht0 : ebInv t) :
    (∀ hs h, lookupH hs h = none → addHeader hs h = (hs.length, hs ++ [(h, hs.length)])) ∧
    (∀ hs h cid, lookupH hs h = some cid → addHeader hs h = (cid, hs)) ∧
    normalInv (runNormal opts s ops) ∧
    s.headers <+: (runNormal opts s ops).headers ∧
    (runNormal opts s ops).headers.map Prod.snd =
      List.range (runNormal opts s ops).headers.length ∧
    ((runNormal opts s ops).headers.map Prod.fst).Nodup ∧
    (∀ r ∈ (runNormal opts s ops).rows ++ [(runNormal opts s ops).row], ∀ p ∈ r,
      ((runNormal opts s ops).headers.map Prod.snd).count p.1 = 1) ∧
    ebInv (runEB opts t ebops) ∧
    t.headers <+: (runEB opts t ebops).headers ∧
    (∀ r ∈ (runEB opts t ebops).rows ++ [(runEB opts t ebops).row], ∀ rv ∈ r,
      ((runEB opts t ebops).headers.map Prod.snd).count rv.colid = 1) := by
  obtain ⟨hinvN, hpreN⟩ := runNormal_preserves opts ops hs0
  obtain ⟨hinvE, hpreE⟩ := runEB_preserves opts ebops ht0
  refine ⟨fun hs h => addHeader_fresh, fun hs h cid => addHeader_known,
    hinvN, hpreN, hinvN.1.1, hinvN.1.2, ?_, hinvE, hpreE, ?_⟩
  · intro r hr p hp
    rcases List.mem_append.mp hr with hr | hr
    · exact count_snd_eq_one hinvN.1 (hinvN.2.1 r hr p hp)
    · rcases List.mem_singleton.mp hr with rfl
      exact count_snd_eq_one hinvN.1 (hinvN.2.2 p hp)
  · intro r hr rv hrv
    rcases List.mem_append.mp hr with hr | hr
    · exact count_snd_eq_one hinvE.1 (hinvE.2.1 r hr rv hrv)
    · rcases List.mem_singleton.mp hr with rfl
      exact count_snd_eq_one hinvE.1 (hinvE.2.2 rv hrv)

/-- Witness for C2: the invariant holds after a small concrete normal-dialect
trace started from the empty accumulator state. -/
theorem header_table_id_invariants_witness :
    normalInv (runNormal ⟨false, false, false, false⟩ ⟨[], [], []⟩
      [NormalOp.field "B" "x" [] true true, NormalOp.field "A" "y" ["P"] true true,
        NormalOp.closeRecord, NormalOp.field "B" "z" [] true true]) :=
  (header_table_id_invariants ⟨false, false, false, false⟩ ⟨[], [], []⟩
    [NormalOp.field "B" "x" [] true true, NormalOp.field "A" "y" ["P"] true true,
      NormalOp.closeRecord, NormalOp.field "B" "z" [] true true]
    ⟨[("Hostname", 0), ("AgentID", 1)], [], []⟩
    [EBOp.field "X" "1" true, EBOp.closeEvent]
    (by decide) (by decide)).2.2.1

/-- The header table each newly encountered event type starts with
(auditparser.go:1388-1391 and 1696-1699): `Hostname` gets id 0 and
`AgentID` id 1 before any data field is recorded. -/
def seedEBHeaders : Headers := [("Hostname", 0), ("AgentID", 1)]

/-- The initial accumulator state for a newly encountered event type. -/
def seedEBState : EBState := ⟨seedEBHeaders, [], []⟩

/-- The field-name transform of the EventBuffer/StateAgentInspector parsers
(auditparser.go:1429-1436 and analogues): capitalize, rename `Timestamp` to
`EventBufferTime_<eventType>`, rename `Hostname` to `DNSHostname`. -/
def renameEBField (eventType f : String) : String :=
  let f := UpperCamelCase f
  let f := if f = "Timestamp" then "EventBufferTime_" ++ eventType else f
  if f = "Hostname" then "DNSHostname" else f

theorem rename_step_ne_hostname (x : String) :
    (if x = "Hostname" then "DNSHostname" else x) ≠ "Hostname" := by
  by_cases hx : x = "Hostname"
  · rw [if_pos hx]
    decide
  · rw [if_neg hx]
    exact hx

/-- C10: each newly encountered event type's header table is pre-seeded with
exactly `Hostname` at column id 0 and `AgentID` at column id 1 before any
data field is recorded; every later discovered column receives an id equal
to the table's current size, so ids stay the consecutive integers `0..n-1`
and the seed entries are never displaced; and the field-name transform maps
any data field (in particular one literally named `hostname`) away from the
name `Hostname`, so a data field can never occupy the synthetic slot. -/
theorem eventbuffer_header_seeding
    (opts : Options) (ops : List EBOp) (eventType f : String) :
    seedEBHeaders = [("Hostname", 0), ("AgentID", 1)] ∧
    seedEBHeaders.length = 2 ∧
    seedEBState.rows = [] ∧
    seedEBState.row = [] ∧
    headersWF seedEBHeaders ∧
    (∀ hs h, lookupH hs h = none → addHeader hs h = (hs.length, hs ++ [(h, hs.length)])) ∧
    lookupH (runEB opts seedEBState ops).headers "Hostname" = some 0 ∧
    lookupH (runEB opts seedEBState ops).headers "AgentID" = some 1 ∧
    headersWF (runEB opts seedEBState ops).headers ∧
    (runEB opts seedEBState ops).headers.map Prod.snd =
      List.range (runEB opts seedEBState ops).headers.length ∧
    seedEBHeaders <+: (runEB opts seedEBState ops).headers ∧
    renameEBField eventType "hostname" = "DNSHostname" ∧
    renameEBField eventType f ≠ "Hostname" := by
  have hseed : ebInv seedEBState := by decide
  obtain ⟨hinv, hpre⟩ := runEB_preserves opts ops hseed
  refine ⟨rfl, rfl, rfl, rfl, by decide, fun hs h => addHeader_fresh, ?_, ?_,
    hinv.1, hinv.1.1, hpre, ?_, ?_⟩
  · exact lookupH_of_prefix hpre (by decide)
  · exact lookupH_of_prefix hpre (by decide)
  · have h1 : UpperCamelCase "hostname" = "Hostname" := by decide
    have h2 : ¬ ("Hostname" : String) = "Timestamp" := by decide
    simp [renameEBField, h1, if_neg h2]
  · unfold renameEBField
    exact rename_step_ne_hostname _

/-- Witness for C10: after a concrete trace that adds data fields, the seed
entries still hold ids 0 and 1. -/
theorem eventbuffer_header_seeding_witness :
    lookupH (runEB ⟨false, false, false, false⟩ seedEBState
      [EBOp.field "RemoteIpAddress" "10.0.0.1" true,
        EBOp.field "DNSHostname" "h" true, EBOp.closeEvent]).headers
      "Hostname" = some 0 :=
  (eventbuffer_header_seeding ⟨false, false, false, false⟩
    [EBOp.field "RemoteIpAddress" "10.0.0.1" true,
      EBOp.field "DNSHostname" "h" true, EBOp.closeEvent]
    "UrlMonitorEvent" "hostname").2.2.2.2.2.2.1

theorem getElem?_eq_some_getD {cs : List Char} {i : Nat} (d : Char) (h : i < cs.length) :
    cs[i]? = some (cs.getD i d) := by
  rw [List.getElem?_eq_getElem h, List.getD_eq_getElem]

theorem timeGuardFrac_length {cs : List Char} (h : timeGuardFrac cs = true) :
    23 ≤ cs.length := by
  simp only [timeGuardFrac, Bool.and_eq_true, Bool.or_eq_true, beq_iff_eq] at h
  rcases h.1.1.1.1.1 with h | h <;> omega

theorem timeGuardPlain_length {cs : List Char} (h : timeGuardPlain cs = true) :
    19 ≤ cs.length := by
  simp only [timeGuardPlain, Bool.and_eq_true, Bool.or_eq_true, beq_iff_eq] at h
  rcases h.1.1.1.1 with h | h <;> omega

theorem take_set_decomp (cs : List Char) (k n : Nat) (c : Char)
    (hk : k < n) (hn : n ≤ cs.length) :
    (cs.take n).set k c = cs.take k ++ c :: (cs.drop (k + 1)).take (n - (k + 1)) := by
  have hklen : k < (cs.take n).length := by
    rw [List.length_take]
    omega
  rw [List.set_eq_take_cons_drop c hklen, List.take_take, List.drop_take,
    Nat.min_eq_left (Nat.le_of_lt hk)]

theorem timeGuardFracChecked_eq (cs : List Char) :
    timeGuardFracChecked cs = some (timeGuardFrac cs) := by
  rcases hlen : (cs.length == 23 || cs.length == 24) with _ | _
  · simp [timeGuardFracChecked, timeGuardFrac, hlen]
  · have hlen' : cs.length = 23 ∨ cs.length = 24 := by
      simpa only [Bool.or_eq_true, beq_iff_eq] using hlen
    have h23 : 23 ≤ cs.length := by rcases hlen' with h | h <;> omega
    have h4 := getElem?_eq_some_getD ' ' (by omega : 4 < cs.length)
    have h7 := getElem?_eq_some_getD ' ' (by omega : 7 < cs.length)
    have h13 := getElem?_eq_some_getD ' ' (by omega : 13 < cs.length)
    have h16 := getElem?_eq_some_getD ' ' (by omega : 16 < cs.length)
    have h19 := getElem?_eq_some_getD ' ' (by omega : 19 < cs.length)
    simp only [timeGuardFracChecked, timeGuardFrac, hlen, if_true,
      h4, h7, h13, h16, h19, Option.some_bind]
    by_cases hc4 : cs[4]?.getD ' ' = '-' <;>
      by_cases hc7 : cs[7]?.getD ' ' = '-' <;>
        by_cases hc13 : cs[13]?.getD ' ' = ':' <;>
          by_cases hc16 : cs[16]?.getD ' ' = ':' <;>
            simp [hc4, hc7, hc13, hc16]

theorem timeGuardPlainChecked_eq (cs : List Char) :
    timeGuardPlainChecked cs = some (timeGuardPlain cs) := by
  rcases hlen : (cs.length == 19 || cs.length == 20) with _ | _
  · simp [timeGuardPlainChecked, timeGuardPlain, hlen]
  · have hlen' : cs.length = 19 ∨ cs.length = 20 := by
      simpa only [Bool.or_eq_true, beq_iff_eq] using hlen
    have h19 : 19 ≤ cs.length := by rcases hlen' with h | h <;> omega
    have h4 := getElem?_eq_some_getD ' ' (by omega : 4 < cs.length)
    have h7 := getElem?_eq_some_getD ' ' (by omega : 7 < cs.length)
    have h13 := getElem?_eq_some_getD ' ' (by omega : 13 < cs.length)
    have h16 := getElem?_eq_some_getD ' ' (by omega : 16 < cs.length)
    simp only [timeGuardPlainChecked, timeGuardPlain, hlen, if_true,
      h4, h7, h13, h16, Option.some_bind]
    by_cases hc4 : cs[4]?.getD ' ' = '-' <;>
      by_cases hc7 : cs[7]?.getD ' ' = '-' <;>
        by_cases hc13 : cs[13]?.getD ' ' = ':' <;>
          simp [hc4, hc7, hc13]

/-- C9: the timestamp normalizer is total and never indexes out of bounds:
for every input string the fully bounds-checked evaluation (every character
read at offsets 4, 7, 13, 16, 19 and both slicings go through checked
access, which would return `none` exactly where Go would panic) succeeds
and returns the value of `parse_time` — in particular for the empty string
and for strings shorter than 19 characters. -/
theorem parse_time_never_out_of_bounds (t : String) :
    parse_time_checked t = some (parse_time t) := by
  rcases hg1 : timeGuardFrac t.data with _ | _
  · rcases hg2 : timeGuardPlain t.data with _ | _
    · simp [parse_time_checked, parse_time, timeGuardFracChecked_eq,
        timeGuardPlainChecked_eq, hg1, hg2]
    · have hlen := timeGuardPlain_length hg2
      have hlen' : 19 ≤ t.length := hlen
      simp [parse_time_checked, parse_time, timeGuardFracChecked_eq,
        timeGuardPlainChecked_eq, hg1, hg2, hlen, hlen']
  · have hlen := timeGuardFrac_length hg1
    have hlen' : 23 ≤ t.length := hlen
    simp [parse_time_checked, parse_time, timeGuardFracChecked_eq, hg1, hlen, hlen']

/-- C3: `parse_time` recognizes exactly the two fixed-width timestamp
shapes `timeGuardFrac` (length 23/24, separators at offsets 4, 7, 13, 16
and a dot at 19 — the fractional ISO-8601 form, the `Z` suffix being
assumed rather than inspected) and `timeGuardPlain` (length 19/20 — the
whole-second form); a matching string is rewritten to its first 23
(respectively 19) characters with the `T` separator position 10 replaced by
a space — so date, time and fractional part are preserved and a trailing
`Z`, if present, is dropped — and any string matching neither shape is
returned unchanged. -/
theorem parse_time_two_patterns (t : String) :
    (timeGuardFrac t.data = true →
      (parse_time t).data = (t.data.take 23).set 10 ' ' ∧
      (parse_time t).length = 23) ∧
    (timeGuardFrac t.data = false → timeGuardPlain t.data = true →
      (parse_time t).data = (t.data.take 19).set 10 ' ' ∧
      (parse_time t).length = 19) ∧
    (timeGuardFrac t.data = false → timeGuardPlain t.data = false →
      parse_time t = t) ∧
    parse_time "2019-12-19T11:11:45.299Z" = "2019-12-19 11:11:45.299" ∧
    parse_time "2019-12-19T11:11:45.299" = "2019-12-19 11:11:45.299" ∧
    parse_time "2019-12-19T11:11:45Z" = "2019-12-19 11:11:45" ∧
    parse_time "2019-12-19T11:11:45" = "2019-12-19 11:11:45" ∧
    parse_time "not a timestamp here" = "not a timestamp here" ∧
    parse_time "" = "" := by
  refine ⟨?_, ?_, ?_, by decide, by decide, by decide, by decide, by decide, by decide⟩
  · intro hg
    have hlen := timeGuardFrac_length hg
    have hdata : (parse_time t).data = (t.data.take 23).set 10 ' ' := by
      simp only [parse_time, hg, if_true]
      rw [take_set_decomp t.data 10 23 ' ' (by omega) hlen]
      simp [String.data_append]
    refine ⟨hdata, ?_⟩
    show (parse_time t).data.length = 23
    rw [hdata, List.length_set, List.length_take]
    omega
  · intro hg1 hg2
    have hlen := timeGuardPlain_length hg2
    have hdata : (parse_time t).data = (t.data.take 19).set 10 ' ' := by
      simp only [parse_time, hg1, hg2, Bool.false_eq_true, if_false, if_true]
      rw [take_set_decomp t.data 10 19 ' ' (by omega) hlen]
      simp [String.data_append]
    refine ⟨hdata, ?_⟩
    show (parse_time t).data.length = 19
    rw [hdata, List.length_set, List.length_take]
    omega
  · intro hg1 hg2
    simp only [parse_time, hg1, hg2, Bool.false_eq_true, if_false]

/-- Witness for C3: the fractional pattern rewritten at a concrete ISO-8601
timestamp. -/
theorem parse_time_two_patterns_witness :
    (parse_time "2019-12-19T11:11:45.299Z").data =
      ("2019-12-19T11:11:45.299Z".data.take 23).set 10 ' ' ∧
    (parse_time "2019-12-19T11:11:45.299Z").length = 23 :=
  (parse_time_two_patterns "2019-12-19T11:11:45.299Z").1 (by decide)

/-! ### The dialect detector (auditparser.go:511-555) -/

/-- The three audit dialects. -/
inductive AuditStyle
  | normal
  | eventBuffer
  | stateAgentInspector
deriving DecidableEq

/-- Result of the two-line probe: a dialect, the issues-file classification,
or one of the malformed-header rejections; `unexpectedSchema` is the
`auditXMLStyle == 0` fall-through for files with fewer than two lines. -/
inductive Detection
  | unexpectedFirstLine (line : String)
  | issuesFile
  | unexpectedSecondLine (line : String)
  | style (s : AuditStyle)
  | unexpectedSchema
deriving DecidableEq

/-- Model of the dialect-classification part of the probe loop
(auditparser.go:520-555): line 1 must start (after trimming) with `<?xml`;
line 2 is trimmed and lower-cased, `<issuelist` means an issues file,
a missing `<itemlist` prefix is a malformed header, and otherwise the
style is Normal, overridden to EventBuffer and then to StateAgentInspector
by the two `generator=` substring tests, in that order. -/
def detectDialect : List String → Detection
  | [] => .unexpectedSchema
  | [l1] =>
      if !(strStartsWith (strTrim l1) "<?xml") then .unexpectedFirstLine (strTrim l1)
      else .unexpectedSchema
  | l1 :: l2 :: _ =>
      if !(strStartsWith (strTrim l1) "<?xml") then .unexpectedFirstLine (strTrim l1)
      else
        let t2 := strToLower (strTrim l2)
        if strStartsWith t2 "<issuelist" then .issuesFile
        else if !(strStartsWith t2 "<itemlist") then .unexpectedSecondLine t2
        else
          let style := AuditStyle.normal
          let style := if strContains t2 "generator=\"eventbuffer\"" then
            AuditStyle.eventBuffer else style
          let style := if strContains t2 "generator=\"stateagentinspector\"" then
            AuditStyle.stateAgentInspector else style
          .style style

/-- The number of lines the probe loop successfully scans before it stops:
the loop breaks only once `row_count >= 3`, so on a well-formed file with at
least three lines it consumes three lines, although the classification is
determined by the first two. -/
def detectLinesRead : List String → Nat
  | [] => 0
  | [_] => 1
  | l1 :: l2 :: rest =>
      if !(strStartsWith (strTrim l1) "<?xml") then 1
      else if strStartsWith (strToLower (strTrim l2)) "<issuelist" then 2
      else if !(strStartsWith (strToLower (strTrim l2)) "<itemlist") then 2
      else
        match rest with
        | [] => 2
        | _ :: _ => 3

/-- C4 counterexample: the probe loop breaks only at `row_count >= 3`, so on
this four-line file it successfully scans three lines — the claim that the
detector reads at most two lines of a file is false. -/
theorem dialect_detector_reads_three_lines :
    detectLinesRead ["<?xml version=\"1.0\" encoding=\"UTF-8\"?>",
      "<itemList generator=\"w32tasks\" version=\"1.0\">",
      "<FileItem>", "</FileItem>"] = 3 ∧
    ¬ detectLinesRead ["<?xml version=\"1.0\" encoding=\"UTF-8\"?>",
      "<itemList generator=\"w32tasks\" version=\"1.0\">",
      "<FileItem>", "</FileItem>"] ≤ 2 := by
  decide

/-- C4 (amended): the probe consumes at most three lines, its classification
depends only on the first two lines, and it classifies exactly as claimed: a
first line not starting with the XML declaration prefix is rejected, a
lower-cased second line starting `<issuelist` is an issues file, one not
starting `<itemlist` is a malformed header, and an `<itemlist` line yields
Normal unless the `generator="eventbuffer"` or (with priority)
`generator="stateagentinspector"` marker is present; the probe is a pure
function of the lines, with no side effect on parsing state. -/
theorem dialect_detector_classification
    (lines : List String) (l1 l2 : String) (rest : List String) :
    detectLinesRead lines ≤ 3 ∧
    detectDialect lines = detectDialect (lines.take 2) ∧
    (strStartsWith (strTrim l1) "<?xml" = false →
      detectDialect (l1 :: l2 :: rest) = Detection.unexpectedFirstLine (strTrim l1)) ∧
    (strStartsWith (strTrim l1) "<?xml" = true →
      strStartsWith (strToLower (strTrim l2)) "<issuelist" = true →
      detectDialect (l1 :: l2 :: rest) = Detection.issuesFile) ∧
    (strStartsWith (strTrim l1) "<?xml" = true →
      strStartsWith (strToLower (strTrim l2)) "<issuelist" = false →
      strStartsWith (strToLower (strTrim l2)) "<itemlist" = false →
      detectDialect (l1 :: l2 :: rest) =
        Detection.unexpectedSecondLine (strToLower (strTrim l2))) ∧
    (strStartsWith (strTrim l1) "<?xml" = true →
      strStartsWith (strToLower (strTrim l2)) "<issuelist" = false →
      strStartsWith (strToLower (strTrim l2)) "<itemlist" = true →
      strContains (strToLower (strTrim l2)) "generator=\"stateagentinspector\"" = true →
      detectDialect (l1 :: l2 :: rest) = Detection.style AuditStyle.stateAgentInspector) ∧
    (strStartsWith (strTrim l1) "<?xml" = true →
      strStartsWith (strToLower (strTrim l2)) "<issuelist" = false →
      strStartsWith (strToLower (strTrim l2)) "<itemlist" = true →
      strContains (strToLower (strTrim l2)) "generator=\"stateagentinspector\"" = false →
      strContains (strToLower (strTrim l2)) "generator=\"eventbuffer\"" = true →
      detectDialect (l1 :: l2 :: rest) = Detection.style AuditStyle.eventBuffer) ∧
    (strStartsWith (strTrim l1) "<?xml" = true →
      strStartsWith (strToLower (strTrim l2)) "<issuelist" = false →
      strStartsWith (strToLower (strTrim l2)) "<itemlist" = true →
      strContains (strToLower (strTrim l2)) "generator=\"stateagentinspector\"" = false →
      strContains (strToLower (strTrim l2)) "generator=\"eventbuffer\"" = false →
      detectDialect (l1 :: l2 :: rest) = Detection.style AuditStyle.normal) := by
  refine ⟨?_, ?_, ?_, ?_, ?_, ?_, ?_, ?_⟩
  · rcases lines with _ | ⟨a, _ | ⟨b, r⟩⟩
    · simp [detectLinesRead]
    · simp [detectLinesRead]
    · rcases r with _ | ⟨c, r'⟩ <;>
        · rw [detectLinesRead]
          split_ifs <;> omega
  · rcases lines with _ | ⟨a, _ | ⟨b, r⟩⟩ <;> rfl
  · intro h1
    simp [detectDialect, h1]
  · intro h1 h2
    simp [detectDialect, h1, h2]
  · intro h1 h2 h3
    simp [detectDialect, h1, h2, h3]
  · intro h1 h2 h3 h4
    simp [detectDialect, h1, h2, h3, h4]
  · intro h1 h2 h3 h4 h5
    simp [detectDialect, h1, h2, h3, h4, h5]
  · intro h1 h2 h3 h4 h5
    simp [detectDialect, h1, h2, h3, h4, h5]

/-- Witness for C4 (amended): a concrete issues file is classified
`issuesFile` from its first two lines. -/
theorem dialect_detector_classification_witness :
    detectDialect ["<?xml version=\"1.0\"?>", "<issueList version=\"1.0\">"] =
      Detection.issuesFile :=
  (dialect_detector_classification [] "<?xml version=\"1.0\"?>"
    "<issueList version=\"1.0\">" []).2.2.2.1 (by decide) (by decide)

/-! ### The column schema assembler (auditparser.go:1037-1109 and 1863-1937) -/

/-- Lexicographic character-list comparison: `charListLe as bs` is Go's
`!(bs < as)`, i.e. the non-strict order the remaining-header sort leaves its
output in (`sort.Slice` with the comparator `ToLower(i) < ToLower(j)`). -/
def charListLe : List Char → List Char → Bool
  | [], _ => true
  | _ :: _, [] => false
  | a :: as, b :: bs => if a < b then true else if b < a then false else charListLe as bs

theorem charListLe_cons_iff {a b : Char} {as bs : List Char} :
    charListLe (a :: as) (b :: bs) = true ↔
      a < b ∨ (a = b ∧ charListLe as bs = true) := by
  by_cases hab : a < b
  · simp [charListLe, hab]
  · by_cases hba : b < a
    · have hne : ¬ a = b := fun h => (lt_irrefl a (h ▸ hba))
      simp [charListLe, hab, hba, hne]
    · have heq : a = b := le_antisymm (not_lt.mp hba) (not_lt.mp hab)
      simp [charListLe, hab, hba, heq]

theorem charListLe_total : ∀ as bs, charListLe as bs = true ∨ charListLe bs as = true
  | [], _ => Or.inl rfl
  | _ :: _, [] => Or.inr rfl
  | a :: as, b :: bs => by
      rcases lt_trichotomy a b with h | h | h
      · exact Or.inl (charListLe_cons_iff.mpr (Or.inl h))
      · rcases charListLe_total as bs with ih | ih
        · exact Or.inl (charListLe_cons_iff.mpr (Or.inr ⟨h, ih⟩))
        · exact Or.inr (charListLe_cons_iff.mpr (Or.inr ⟨h.symm, ih⟩))
      · exact Or.inr (charListLe_cons_iff.mpr (Or.inl h))

theorem charListLe_trans :
    ∀ as bs cs, charListLe as bs = true → charListLe bs cs = true →
      charListLe as cs = true
  | [], _, _, _, _ => rfl
  | _ :: _, [], _, h1, _ => by simp [charListLe] at h1
  | _ :: _, _ :: _, [], _, h2 => by simp [charListLe] at h2
  | a :: as, b :: bs, c :: cs, h1, h2 => by
      rcases charListLe_cons_iff.mp h1 with h1' | ⟨rfl, h1'⟩ <;>
        rcases charListLe_cons_iff.mp h2 with h2' | ⟨rfl, h2'⟩
      · exact charListLe_cons_iff.mpr (Or.inl (lt_trans h1' h2'))
      · exact charListLe_cons_iff.mpr (Or.inl h1')
      · exact charListLe_cons_iff.mpr (Or.inl h2')
      · exact charListLe_cons_iff.mpr (Or.inr ⟨rfl, charListLe_trans as bs cs h1' h2'⟩)

theorem charListLe_antisymm :
    ∀ as bs, charListLe as bs = true → charListLe bs as = true → as = bs
  | [], [], _, _ => rfl
  | [], _ :: _, _, h2 => by simp [charListLe] at h2
  | _ :: _, [], h1, _ => by simp [charListLe] at h1
  | a :: as, b :: bs, h1, h2 => by
      rcases charListLe_cons_iff.mp h1 with h1' | ⟨rfl, h1'⟩ <;>
        rcases charListLe_cons_iff.mp h2 with h2' | ⟨h2'', h2'⟩
      · exact absurd h2' (lt_asymm h1')
      · exact absurd h1' (h2'' ▸ lt_irrefl b)
      · exact absurd h2' (lt_irrefl a)
      · rw [charListLe_antisymm as bs h1' h2']

/-- The comparison the remaining-header block sorts by
(auditparser.go:1091-1093): case-insensitive lexicographic order. -/
def lowerLe (a b : String) : Prop :=
  charListLe (strToLower a).data (strToLower b).data = true

instance : DecidableRel lowerLe := fun a b => by
  unfold lowerLe
  infer_instance

instance : IsTotal String lowerLe :=
  ⟨fun a b => charListLe_total (strToLower a).data (strToLower b).data⟩

instance : IsTrans String lowerLe :=
  ⟨fun _ _ _ hab hbc => charListLe_trans _ _ _ hab hbc⟩

theorem lowerLe_antisymm {a b : String} (h1 : lowerLe a b) (h2 : lowerLe b a) :
    strToLower a = strToLower b := by
  have := charListLe_antisymm _ _ h1 h2
  cases ha : strToLower a with
  | mk la =>
      cases hb : strToLower b with
      | mk lb =>
          rw [ha, hb] at this
          simp only [] at this
          rw [this]

/-- One entry of the audit-type header configuration
(`Parse_Config_AuditHeaders`). -/
structure AuditHeaderConfig where
  ItemName : String
  HeaderOrder : List String
  HeadersOmitted : List String
deriving DecidableEq

/-- The column-schema part of the parse configuration. -/
structure ParseConfig where
  HeadersMandatory : List String
  HeadersOptional : List String
  AuditHeaderConfigs : List AuditHeaderConfig
  OmitUnlisted : Bool
deriving DecidableEq

/-- The audit-type-specific configuration lookup (auditparser.go:1056-1062):
first entry whose `ItemName` matches case-insensitively. -/
def findAuditConfig (cfgs : List AuditHeaderConfig) (name : String) :
    Option AuditHeaderConfig :=
  cfgs.find? fun c => strToLower c.ItemName == strToLower name

/-- The matching entry's explicit header order, or `[]` when no entry
matches (`configindex == -1`). -/
def orderOf (cfg : ParseConfig) (auditName : String) : List String :=
  match findAuditConfig cfg.AuditHeaderConfigs auditName with
  | some ac => ac.HeaderOrder
  | none => []

/-- The matching entry's omit-list, or `[]` when no entry matches. -/
def omittedOf (cfg : ParseConfig) (auditName : String) : List String :=
  match findAuditConfig cfg.AuditHeaderConfigs auditName with
  | some ac => ac.HeadersOmitted
  | none => []

/-- The omit-list removal loop (auditparser.go:1096-1104): each omitted name
is spliced out of the remaining headers; on the duplicate-free remaining
list this is `List.erase`. -/
def removeOmitted (omitted rem : List String) : List String :=
  omitted.foldl (fun r h => r.erase h) rem

/-- The fixed leading columns of the output (auditparser.go:1039-1070):
every mandatory column (emitted whether discovered or not — the Go `if`
appends `h` in both branches), then each optional column that exists in the
discovered header table, then the matching audit type's explicit order. -/
def assembledHead (cfg : ParseConfig) (auditType : String) (hs : Headers) :
    List String :=
  cfg.HeadersMandatory ++
    cfg.HeadersOptional.filter (fun h => (lookupH hs h).isSome) ++
    orderOf cfg auditType

/-- The full output column order of the normal dialect
(auditparser.go:1037-1109).  `enum` is the order in which the Go
`for h := range headers` loop happens to enumerate the discovered header
map — Go leaves it unspecified, so it is a parameter here; the remaining
headers are those not already placed, sorted case-insensitively, with the
omit-list removed, and they are dropped entirely when `OmitUnlisted` is
set. -/
def computeCsvHeaders (cfg : ParseConfig) (auditType : String) (hs : Headers)
    (enum : List String) : List String :=
  assembledHead cfg auditType hs ++
    (if cfg.OmitUnlisted then []
     else removeOmitted (omittedOf cfg auditType)
       (List.insertionSort lowerLe
         (enum.filter fun h => !((assembledHead cfg auditType hs).contains h))))

/-- The fixed leading columns of an EventBuffer/StateAgentInspector event
type's output (auditparser.go:1865-1898): as in the normal dialect, except
that the optional column `EventBufferType` is appended even when it is not
in the discovered table, and the audit-config key is
`EventItem_<eventType>`. -/
def assembledHeadEB (cfg : ParseConfig) (eventType : String) (hs : Headers) :
    List String :=
  cfg.HeadersMandatory ++
    cfg.HeadersOptional.filter
      (fun h => (lookupH hs h).isSome || h == "EventBufferType") ++
    orderOf cfg ("EventItem_" ++ eventType)

/-- The full output column order of one event type in the
EventBuffer/StateAgentInspector dialects (auditparser.go:1863-1937). -/
def computeCsvHeadersEB (cfg : ParseConfig) (eventType : String) (hs : Headers)
    (enum : List String) : List String :=
  assembledHeadEB cfg eventType hs ++
    (if cfg.OmitUnlisted then []
     else removeOmitted (omittedOf cfg ("EventItem_" ++ eventType))
       (List.insertionSort lowerLe
         (enum.filter fun h => !((assembledHeadEB cfg eventType hs).contains h))))

theorem mem_removeOmitted_of {h : String} {omitted l : List String}
    (hl : h ∈ l) (ho : h ∉ omitted) : h ∈ removeOmitted omitted l := by
  induction omitted generalizing l with
  | nil => exact hl
  | cons o os ih =>
      have hne : h ≠ o := fun he => ho (he ▸ List.mem_cons_self o os)
      exact ih ((List.mem_erase_of_ne hne).mpr hl) fun hm => ho (List.mem_cons_of_mem o hm)

theorem removeOmitted_sublist (omitted l : List String) :
    List.Sublist (removeOmitted omitted l) l := by
  induction omitted generalizing l with
  | nil => exact List.Sublist.refl l
  | cons o os ih => exact (ih (l.erase o)).trans (List.erase_sublist o l)

theorem not_mem_removeOmitted {h : String} {omitted l : List String}
    (hnd : l.Nodup) (ho : h ∈ omitted) : h ∉ removeOmitted omitted l := by
  induction omitted generalizing l with
  | nil => cases ho
  | cons o os ih =>
      rcases List.mem_cons.mp ho with rfl | ho'
      · intro hmem
        exact hnd.not_mem_erase ((removeOmitted_sublist os (l.erase h)).subset hmem)
      · exact ih (hnd.erase o) ho'

theorem sorted_removeOmitted {omitted l : List String}
    (hs : List.Sorted lowerLe l) : List.Sorted lowerLe (removeOmitted omitted l) :=
  hs.sublist (removeOmitted_sublist omitted l)

theorem sorted_eq_of_perm_lowerInj {l₁ l₂ : List String} (hp : l₁.Perm l₂)
    (hs₁ : List.Sorted lowerLe l₁) (hs₂ : List.Sorted lowerLe l₂)
    (hinj : ∀ a ∈ l₁, ∀ b ∈ l₁, strToLower a = strToLower b → a = b) : l₁ = l₂ := by
  induction l₁ generalizing l₂ with
  | nil => exact hp.nil_eq
  | cons a t ih =>
      rcases l₂ with _ | ⟨b, t₂⟩
      · exact absurd hp.eq_nil (by simp)
      · have hab : a = b := by
          by_cases h : a = b
          · exact h
          · have haT2 : a ∈ t₂ := by
              rcases List.mem_cons.mp (hp.subset (List.mem_cons_self a t)) with h' | h'
              · exact absurd h' h
              · exact h'
            have hbT : b ∈ t := by
              rcases List.mem_cons.mp (hp.symm.subset (List.mem_cons_self b t₂)) with h' | h'
              · exact absurd h'.symm h
              · exact h'
            have h1 : lowerLe a b := List.rel_of_sorted_cons hs₁ b hbT
            have h2 : lowerLe b a := List.rel_of_sorted_cons hs₂ a haT2
            exact hinj a (List.mem_cons_self a t) b (List.mem_cons_of_mem a hbT)
              (lowerLe_antisymm h1 h2)
        subst hab
        have := ih hp.cons_inv hs₁.of_cons hs₂.of_cons
          fun x hx y hy hxy =>
            hinj x (List.mem_cons_of_mem a hx) y (List.mem_cons_of_mem a hy) hxy
        rw [this]

theorem remaining_eq_of_perm (head omitted : List String) {e1 e2 : List String}
    (hp : e1.Perm e2)
    (hinj : ∀ a ∈ e1, ∀ b ∈ e1, strToLower a = strToLower b → a = b) :
    removeOmitted omitted
      (List.insertionSort lowerLe (e1.filter fun h => !(head.contains h))) =
    removeOmitted omitted
      (List.insertionSort lowerLe (e2.filter fun h => !(head.contains h))) := by
  have hps : (List.insertionSort lowerLe (e1.filter fun h => !(head.contains h))).Perm
      (List.insertionSort lowerLe (e2.filter fun h => !(head.contains h))) :=
    (List.perm_insertionSort lowerLe _).trans
      ((hp.filter _).trans (List.perm_insertionSort lowerLe _).symm)
  have heq := sorted_eq_of_perm_lowerInj hps
    (List.sorted_insertionSort lowerLe _) (List.sorted_insertionSort lowerLe _)
    (fun a ha b hb hab =>
      hinj a (List.mem_of_mem_filter ((List.perm_insertionSort lowerLe _).subset ha))
        b (List.mem_of_mem_filter ((List.perm_insertionSort lowerLe _).subset hb)) hab)
  rw [heq]

/-- C5 counterexample: the output column order is not a function of the
discovered-header set alone.  The two enumerations `["A", "a"]` and
`["a", "A"]` of the same two-column header table are both orders in which
Go's randomized map iteration can present the keys, the comparator
`ToLower(i) < ToLower(j)` considers `A` and `a` tied, and both resulting
outputs are sorted with respect to it — yet they differ.  Moreover, in the
EventBuffer-dialect assembler the configured optional column
`EventBufferType` is emitted even though it was never discovered
(`lookupH [] "EventBufferType" = none`), contradicting the claim that only
discovered optional columns are emitted. -/
theorem schema_order_counterexample :
    List.Perm ["A", "a"] ["a", "A"] ∧
    computeCsvHeaders ⟨[], [], [], false⟩ "x" [("A", 0), ("a", 1)] ["A", "a"] = ["A", "a"] ∧
    computeCsvHeaders ⟨[], [], [], false⟩ "x" [("A", 0), ("a", 1)] ["a", "A"] = ["a", "A"] ∧
    computeCsvHeaders ⟨[], [], [], false⟩ "x" [("A", 0), ("a", 1)] ["A", "a"] ≠
      computeCsvHeaders ⟨[], [], [], false⟩ "x" [("A", 0), ("a", 1)] ["a", "A"] ∧
    computeCsvHeadersEB ⟨[], ["EventBufferType"], [], false⟩ "Foo" [] [] =
      ["EventBufferType"] ∧
    lookupH [] "EventBufferType" = none := by
  exact ⟨by decide, by decide, by decide, by decide, by decide, by decide⟩

/-- C5 (amended): the output column sequence is the configured mandatory
columns first (whether discovered or not), then each configured optional
column that was discovered (in the EventBuffer/StateAgentInspector dialects
the synthetic optional column `EventBufferType` is emitted even when
undiscovered), then the matching audit type's configured explicit order,
then the remaining discovered columns sorted case-insensitively with that
audit type's omit-list removed — all of them dropped instead when
omit-unlisted is configured.  No discovered column is dropped except by the
omit-list or the omit-unlisted flag, and the order is deterministic for a
given configuration and discovered-header set provided no two remaining
column names are case-insensitively equal; ties between such names follow
the unspecified map-enumeration order. -/
theorem schema_assembler_order (cfg : ParseConfig) (auditType eventType : String)
    (hs : Headers) (enum e2 : List String) :
    cfg.HeadersMandatory <+: computeCsvHeaders cfg auditType hs enum ∧
    (∀ h ∈ cfg.HeadersOptional, (lookupH hs h).isSome = true →
      h ∈ computeCsvHeaders cfg auditType hs enum) ∧
    (∀ h ∈ orderOf cfg auditType, h ∈ computeCsvHeaders cfg auditType hs enum) ∧
    (cfg.OmitUnlisted = false → ∀ h ∈ enum, h ∉ omittedOf cfg auditType →
      h ∈ computeCsvHeaders cfg auditType hs enum) ∧
    (cfg.OmitUnlisted = true →
      computeCsvHeaders cfg auditType hs enum = assembledHead cfg auditType hs) ∧
    List.Sorted lowerLe ((computeCsvHeaders cfg auditType hs enum).drop
      (assembledHead cfg auditType hs).length) ∧
    (enum.Nodup → ∀ h ∈ omittedOf cfg auditType,
      h ∉ (computeCsvHeaders cfg auditType hs enum).drop
        (assembledHead cfg auditType hs).length) ∧
    (enum.Perm e2 → (∀ a ∈ enum, ∀ b ∈ enum, strToLower a = strToLower b → a = b) →
      computeCsvHeaders cfg auditType hs enum = computeCsvHeaders cfg auditType hs e2) ∧
    (∀ h ∈ cfg.HeadersOptional, ((lookupH hs h).isSome = true ∨ h = "EventBufferType") →
      h ∈ computeCsvHeadersEB cfg eventType hs enum) ∧
    (enum.Perm e2 → (∀ a ∈ enum, ∀ b ∈ enum, strToLower a = strToLower b → a = b) →
      computeCsvHeadersEB cfg eventType hs enum = computeCsvHeadersEB cfg eventType hs e2) := by
  refine ⟨?_, ?_, ?_, ?_, ?_, ?_, ?_, ?_, ?_, ?_⟩
  · rw [computeCsvHeaders, assembledHead, List.append_assoc, List.append_assoc]
    exact ⟨_, rfl⟩
  · intro h hh hsome
    have hf : h ∈ cfg.HeadersOptional.filter fun x => (lookupH hs x).isSome :=
      List.mem_filter.mpr ⟨hh, hsome⟩
    exact List.mem_append_left _
      (List.mem_append_left _ (List.mem_append_right _ hf))
  · intro h hh
    exact List.mem_append_left _ (List.mem_append_right _ hh)
  · intro homit h hh ho
    by_cases hhead : h ∈ assembledHead cfg auditType hs
    · exact List.mem_append_left _ hhead
    · have hf : h ∈ enum.filter fun x => !((assembledHead cfg auditType hs).contains x) :=
        List.mem_filter.mpr ⟨hh, by simpa using hhead⟩
      have hsorted : h ∈ List.insertionSort lowerLe
          (enum.filter fun x => !((assembledHead cfg auditType hs).contains x)) :=
        ((List.perm_insertionSort lowerLe _).mem_iff).mpr hf
      rw [computeCsvHeaders, homit]
      simp only [Bool.false_eq_true, if_false]
      exact List.mem_append_right _ (mem_removeOmitted_of hsorted ho)
  · intro homit
    rw [computeCsvHeaders, homit]
    simp
  · rw [computeCsvHeaders, List.drop_left]
    rcases cfg.OmitUnlisted with _ | _
    · simp only [Bool.false_eq_true, if_false]
      exact sorted_removeOmitted (List.sorted_insertionSort lowerLe _)
    · simp
  · intro hnd h ho
    rw [computeCsvHeaders, List.drop_left]
    rcases cfg.OmitUnlisted with _ | _
    · simp only [Bool.false_eq_true, if_false]
      have hnds : (List.insertionSort lowerLe
          (enum.filter fun x => !((assembledHead cfg auditType hs).contains x))).Nodup :=
        ((List.perm_insertionSort lowerLe _).nodup_iff).mpr (hnd.filter _)
      exact not_mem_removeOmitted hnds ho
    · simp
  · intro hp hinj
    rw [computeCsvHeaders, computeCsvHeaders]
    rcases cfg.OmitUnlisted with _ | _
    · simp only [Bool.false_eq_true, if_false]
      rw [remaining_eq_of_perm _ _ hp hinj]
    · rfl
  · intro h hh hd
    have hcond : ((lookupH hs h).isSome || h == "EventBufferType") = true := by
      rcases hd with hd | hd
      · simp [hd]
      · simp [hd]
    have hf : h ∈ cfg.HeadersOptional.filter
        fun x => (lookupH hs x).isSome || x == "EventBufferType" :=
      List.mem_filter.mpr ⟨hh, hcond⟩
    exact List.mem_append_left _
      (List.mem_append_left _ (List.mem_append_right _ hf))
  · intro hp hinj
    rw [computeCsvHeadersEB, computeCsvHeadersEB]
    rcases cfg.OmitUnlisted with _ | _
    · simp only [Bool.false_eq_true, if_false]
      rw [remaining_eq_of_perm _ _ hp hinj]
    · rfl

/-- Witness for C5 (amended): determinism at a concrete configuration and
two enumeration orders of the same discovered-header set with no
case-insensitive ties. -/
theorem schema_assembler_order_witness :
    computeCsvHeaders ⟨["Tag"], [], [], false⟩ "FileItem"
      [("b", 0), ("A", 1)] ["b", "A"] =
    computeCsvHeaders ⟨["Tag"], [], [], false⟩ "FileItem"
      [("b", 0), ("A", 1)] ["A", "b"] :=
  (schema_assembler_order ⟨["Tag"], [], [], false⟩ "FileItem" "Foo"
    [("b", 0), ("A", 1)] ["b", "A"] ["A", "b"]).2.2.2.2.2.2.2.1
    (by decide) (by decide)

/-! ### Worker messages, the status cache and the aggregate counters -/

/-- The worker's empty-file message (auditparser.go:1033 and 1854). -/
def emptyFileMessage (warnbox name : String) : String :=
  warnbox ++ "WARNING - File '" ++ name ++ "' is empty."

/-- The status string `ParseConfigUpdateXMLParse` (timeliner.go:2305-2330)
derives from a worker message: the raw message, overridden by each matching
marker substring, tested in this order. -/
def parseStatusOfMessage (msg : String) : String :=
  let st := msg
  let st := if strContains msg "already exists" then "parsed" else st
  let st := if strContains msg "parsed successfully" then "parsed" else st
  let st := if strContains msg "Issues file" then "ignored/issues" else st
  let st := if strContains msg "is empty" then "ignored/empty" else st
  let st := if strContains msg "not rename" then "failed/rename" else st
  let st := if strContains msg "not parse file" then "failed/error" else st
  let st := if strContains msg "does not exist" then "failed/notexist" else st
  let st := if strContains msg "File was split" then "split" else st
  st

/-- The aggregate-statistics category a finished worker's message is counted
under (auditparser.go:378-411). -/
inductive CountCategory
  | success
  | failed
  | cached
  | issues
  | empty
  | other
deriving DecidableEq

/-- The counter-classification chain of the orchestrator
(auditparser.go:378-411), in source order. -/
def countCategoryOfMessage (msg : String) : CountCategory :=
  if strContains msg "parsed successfully" then .success
  else if strContains msg "Could not rename" then .failed
  else if strContains msg "Could not parse file" then .failed
  else if strContains msg "already exists" then .cached
  else if strContains msg "Issues file" then .issues
  else if strContains msg "is empty" then .empty
  else if strContains msg "does not exist" then .failed
  else .other

/-- Rendering of one accumulated row against the final column order
(auditparser.go:1111-1135): the synthetic `Hostname`/`AgentID` cells come
from filename-derived metadata, discovered cells from the row by column id,
and everything else is blank. -/
def renderRow (hs : Headers) (csvHeaders : List String)
    (hostname agentid : String) (row : Row) : List String :=
  csvHeaders.map fun header =>
    if header = "Hostname" then hostname
    else if header = "AgentID" then agentid
    else
      match lookupH hs header with
      | none => ""
      | some cid => (lookupRow row cid).getD ""

/-- Outcome of the tail of a normal-dialect worker: either the empty-file
report (temp file removed, no final CSV) or a rendered table. -/
inductive ThreadOutcome
  | emptyFile (message : String)
  | written (csvHeaders : List String) (csvRows : List (List String)) (message : String)
deriving DecidableEq

/-- The tail of the normal-dialect worker (auditparser.go:1030-1135 and
2057): zero accumulated rows short-circuit into the is-empty warning before
any output assembly; otherwise the column order is assembled, the rows are
rendered and the success notice is produced. -/
def finalizeNormal (warnbox box name auditType hostname agentid : String)
    (cfg : ParseConfig) (hs : Headers) (enum : List String) (rows : List Row) :
    ThreadOutcome :=
  if rows.length = 0 then .emptyFile (emptyFileMessage warnbox name)
  else
    .written (computeCsvHeaders cfg auditType hs enum)
      (rows.map (renderRow hs (computeCsvHeaders cfg auditType hs enum) hostname agentid))
      (box ++ "NOTICE - File '" ++ name ++ "' parsed successfully.")

theorem listContainsSeq_append_right {p ys : List Char} (xs : List Char)
    (h : listContainsSeq ys p = true) : listContainsSeq (xs ++ ys) p = true := by
  induction xs with
  | nil => exact h
  | cons c t ih =>
      show (p.isPrefixOf (c :: (t ++ ys)) || listContainsSeq (t ++ ys) p) = true
      simp [ih]

theorem emptyFileMessage_contains_is_empty (warnbox name : String) :
    strContains (emptyFileMessage warnbox name) "is empty" = true := by
  unfold strContains emptyFileMessage
  simp only [String.data_append, List.append_assoc]
  exact listContainsSeq_append_right _
    (listContainsSeq_append_right _ (listContainsSeq_append_right _ (by decide)))

/-- C6 counterexample: the empty-file outcome is mapped to a cache status
and a counter by substring matching on the whole message, filename
included, so a schema-valid empty file named `does not exist.xml` is
recorded in the cache with the failure status `failed/notexist`, not
`ignored/empty`; and one named `parsed successfully.xml` is counted as a
success, not as empty. -/
theorem empty_status_counterexample :
    parseStatusOfMessage (emptyFileMessage "" "does not exist.xml") =
      "failed/notexist" ∧
    "failed/notexist" ≠ "ignored/empty" ∧
    countCategoryOfMessage (emptyFileMessage "" "parsed successfully.xml") =
      CountCategory.success ∧
    CountCategory.success ≠ CountCategory.empty := by
  exact ⟨by decide, by decide, by decide, by decide⟩

/-- C6 (amended): a schema-valid file producing zero rows is reported as
empty and not as an error: the worker returns the is-empty message without
creating a final CSV, and — provided the message (in particular the file
name embedded in it) does not contain one of the later-checked marker
substrings that would override the classification — the persisted cache
records the status `ignored/empty`, which is distinct from every failure
status, and the empty counter rather than the failed counter is
incremented. -/
theorem empty_file_reporting
    (warnbox box name auditType hostname agentid : String) (cfg : ParseConfig)
    (hs : Headers) (enum : List String)
    (h1 : strContains (emptyFileMessage warnbox name) "not rename" = false)
    (h2 : strContains (emptyFileMessage warnbox name) "not parse file" = false)
    (h3 : strContains (emptyFileMessage warnbox name) "does not exist" = false)
    (h4 : strContains (emptyFileMessage warnbox name) "File was split" = false)
    (h5 : strContains (emptyFileMessage warnbox name) "parsed successfully" = false)
    (h6 : strContains (emptyFileMessage warnbox name) "Could not rename" = false)
    (h7 : strContains (emptyFileMessage warnbox name) "Could not parse file" = false)
    (h8 : strContains (emptyFileMessage warnbox name) "already exists" = false)
    (h9 : strContains (emptyFileMessage warnbox name) "Issues file" = false) :
    finalizeNormal warnbox box name auditType hostname agentid cfg hs enum [] =
      ThreadOutcome.emptyFile (emptyFileMessage warnbox name) ∧
    (∀ chs rows msg,
      finalizeNormal warnbox box name auditType hostname agentid cfg hs enum [] ≠
        ThreadOutcome.written chs rows msg) ∧
    strContains (emptyFileMessage warnbox name) "is empty" = true ∧
    parseStatusOfMessage (emptyFileMessage warnbox name) = "ignored/empty" ∧
    countCategoryOfMessage (emptyFileMessage warnbox name) = CountCategory.empty ∧
    ("ignored/empty" : String) ≠ "failed/error" ∧
    ("ignored/empty" : String) ≠ "failed/rename" ∧
    ("ignored/empty" : String) ≠ "failed/notexist" ∧
    ("ignored/empty" : String) ≠ "failed/notattemptedyet" := by
  have hemp := emptyFileMessage_contains_is_empty warnbox name
  refine ⟨by simp [finalizeNormal], ?_, hemp, ?_, ?_, by decide, by decide, by decide,
    by decide⟩
  · intro chs rows msg
    simp [finalizeNormal]
  · simp [parseStatusOfMessage, hemp, h1, h2, h3, h4]
  · simp [countCategoryOfMessage, hemp, h2, h5, h6, h7, h8, h9]

/-- Witness for C6 (amended): a typically named empty audit file gets the
`ignored/empty` cache status and the empty counter. -/
theorem empty_file_reporting_witness :
    parseStatusOfMessage
      (emptyFileMessage "[!] " "hostname-agentid-12345_w32tasks.xml") =
      "ignored/empty" ∧
    countCategoryOfMessage
      (emptyFileMessage "[!] " "hostname-agentid-12345_w32tasks.xml") =
      CountCategory.empty :=
  ⟨(empty_file_reporting "[!] " "[+] " "hostname-agentid-12345_w32tasks.xml"
      "w32tasks" "hostname" "agentid" ⟨[], [], [], false⟩ [] []
      (by decide) (by decide) (by decide) (by decide) (by decide) (by decide)
      (by decide) (by decide) (by decide)).2.2.2.1,
    (empty_file_reporting "[!] " "[+] " "hostname-agentid-12345_w32tasks.xml"
      "w32tasks" "hostname" "agentid" ⟨[], [], [], false⟩ [] []
      (by decide) (by decide) (by decide) (by decide) (by decide) (by decide)
      (by decide) (by decide) (by decide)).2.2.2.2.1⟩

/-! ### Orchestrator skip of previously parsed files
(GoAuditParser_Start, auditparser.go:204-237) -/

/-- Name and byte size of a candidate input file. -/
structure GoFileInfo where
  name : String
  size : Int
deriving DecidableEq

/-- One persisted cache entry, keyed by input file name and size. -/
structure Parse_Config_XMLFile where
  InputFileName : String
  InputFileSize : Int
  Status : String
deriving DecidableEq

/-- The first cache entry matching name and size (timeliner.go:2367-2371). -/
def cacheFind : List Parse_Config_XMLFile → String → Int →
    Option Parse_Config_XMLFile
  | [], _, _ => none
  | e :: t, n, sz =>
      if e.InputFileName = n ∧ e.InputFileSize = sz then some e
      else cacheFind t n sz

/-- Model of `InputConfig_GetXMLParseConfig` (timeliner.go:2362-2378): a
matching entry is returned unmodified; otherwise a fresh entry with status
`failed/notattemptedyet` is appended and returned. -/
def InputConfig_GetXMLParseConfig (cache : List Parse_Config_XMLFile)
    (f : GoFileInfo) : List Parse_Config_XMLFile × Parse_Config_XMLFile :=
  match cacheFind cache f.name f.size with
  | some e => (cache, e)
  | none => (cache ++ [⟨f.name, f.size, "failed/notattemptedyet"⟩],
      ⟨f.name, f.size, "failed/notattemptedyet"⟩)

/-- State of the removal loop: surviving work list, evolving cache, and the
cached/issues/empty counters. -/
structure SkipState where
  kept : List GoFileInfo
  cache : List Parse_Config_XMLFile
  cached : Nat
  issues : Nat
  empty : Nat
deriving DecidableEq

/-- One iteration of the removal loop (auditparser.go:204-237).  With
force-reparse or wipe-output set the file is kept untouched; `.json` files
are dropped silently; otherwise the cached status decides: `parsed` and
`split` are dropped as cached, `ignored/issues` and `ignored/empty` are
dropped under their own counters, anything else stays in the work list.
`ExtraFunc5` (timeliner.go:2466-2469) always returns false and is elided. -/
def skipStep (force wipe : Bool) (s : SkipState) (f : GoFileInfo) : SkipState :=
  if force || wipe then { s with kept := s.kept ++ [f] }
  else if strEndsWith f.name ".json" then s
  else
    let r := InputConfig_GetXMLParseConfig s.cache f
    if r.2.Status = "parsed" then { s with cache := r.1, cached := s.cached + 1 }
    else if r.2.Status = "split" then { s with cache := r.1, cached := s.cached + 1 }
    else if r.2.Status = "ignored/issues" then
      { s with cache := r.1, issues := s.issues + 1 }
    else if r.2.Status = "ignored/empty" then
      { s with cache := r.1, empty := s.empty + 1 }
    else { s with cache := r.1, kept := s.kept ++ [f] }

/-- The whole removal loop over the enumerated candidate files. -/
def removePreviouslyParsed (force wipe : Bool) (files : List GoFileInfo)
    (cache : List Parse_Config_XMLFile) : SkipState :=
  files.foldl (skipStep force wipe) ⟨[], cache, 0, 0, 0⟩

theorem cacheFind_append {cache : List Parse_Config_XMLFile} {n : String} {sz : Int}
    {e : Parse_Config_XMLFile} (h : cacheFind cache n sz = some e)
    (ext : List Parse_Config_XMLFile) : cacheFind (cache ++ ext) n sz = some e := by
  induction cache with
  | nil => simp [cacheFind] at h
  | cons c t ih =>
      by_cases hc : c.InputFileName = n ∧ c.InputFileSize = sz
      · simp only [cacheFind, if_pos hc] at h
        simp [cacheFind, hc, h]
      · simp only [cacheFind, if_neg hc] at h
        simp [cacheFind, hc, ih h]

theorem skipStep_cache_extends (force wipe : Bool) (s : SkipState) (g : GoFileInfo) :
    ∃ ext2, (skipStep force wipe s g).cache = s.cache ++ ext2 := by
  rw [skipStep]
  rcases hfw : force || wipe with _ | _
  · simp only [Bool.false_eq_true, if_false]
    rcases hj : strEndsWith g.name ".json" with _ | _
    · simp only [Bool.false_eq_true, if_false]
      rcases hfind : cacheFind s.cache g.name g.size with _ | e
      · simp only [InputConfig_GetXMLParseConfig, hfind]
        split_ifs <;> exact ⟨_, rfl⟩
      · simp only [InputConfig_GetXMLParseConfig, hfind]
        split_ifs <;> exact ⟨[], (List.append_nil _).symm⟩
    · simp only [if_true]
      exact ⟨[], (List.append_nil _).symm⟩
  · simp only [if_true]
    exact ⟨[], (List.append_nil _).symm⟩

theorem skipStep_drops_matched {f : GoFileInfo} {e : Parse_Config_XMLFile}
    {cache0 : List Parse_Config_XMLFile}
    (hfound : cacheFind cache0 f.name f.size = some e)
    (hstatus : e.Status = "parsed" ∨ e.Status = "split" ∨
      e.Status = "ignored/issues" ∨ e.Status = "ignored/empty")
    (hjson : strEndsWith f.name ".json" = false)
    {s : SkipState} (hext : ∃ ext, s.cache = cache0 ++ ext) (g : GoFileInfo)
    (hkept : f ∉ s.kept) :
    f ∉ (skipStep false false s g).kept := by
  obtain ⟨ext, hcache⟩ := hext
  by_cases hgf : g = f
  · subst hgf
    have hfind : cacheFind s.cache g.name g.size = some e := by
      rw [hcache]
      exact cacheFind_append hfound ext
    rw [skipStep]
    simp only [Bool.or_self, Bool.false_eq_true, if_false, hjson,
      InputConfig_GetXMLParseConfig, hfind]
    rcases hstatus with h | h | h | h <;> simp [h] <;> exact hkept
  · rw [skipStep]
    simp only [Bool.or_self, Bool.false_eq_true, if_false]
    rcases hj : strEndsWith g.name ".json" with _ | _
    · simp only [Bool.false_eq_true, if_false]
      rcases hfind : cacheFind s.cache g.name g.size with _ | e2 <;>
        · simp only [InputConfig_GetXMLParseConfig, hfind]
          split_ifs <;>
            first
              | exact hkept
              | (intro hm
                 rcases List.mem_append.mp hm with hm' | hm'
                 · exact hkept hm'
                 · exact hgf (List.mem_singleton.mp hm').symm)
    · simp [hkept]

theorem foldl_skip_drops_matched {f : GoFileInfo} {e : Parse_Config_XMLFile}
    {cache0 : List Parse_Config_XMLFile}
    (hfound : cacheFind cache0 f.name f.size = some e)
    (hstatus : e.Status = "parsed" ∨ e.Status = "split" ∨
      e.Status = "ignored/issues" ∨ e.Status = "ignored/empty")
    (hjson : strEndsWith f.name ".json" = false) :
    ∀ (files : List GoFileInfo) (s : SkipState),
      (∃ ext, s.cache = cache0 ++ ext) → f ∉ s.kept →
      f ∉ (files.foldl (skipStep false false) s).kept := by
  intro files
  induction files with
  | nil =>
      intro s _ hkept
      exact hkept
  | cons g rest ih =>
      intro s hext hkept
      obtain ⟨ext, hcache⟩ := hext
      obtain ⟨ext2, hcache2⟩ := skipStep_cache_extends false false s g
      refine ih (skipStep false false s g) ⟨ext ++ ext2, ?_⟩
        (skipStep_drops_matched hfound hstatus hjson ⟨ext, hcache⟩ g hkept)
      rw [hcache2, hcache, List.append_assoc]

/-- C7: reparsing an unchanged file — same name and byte size as a persisted
cache entry whose status is one of the already-processed ones — with
force-reparse and wipe-output disabled removes it from the work list before
any worker is launched (workers are started only over the surviving list,
so nothing is written for it), and counts it under the cached counter, or
the issues/empty counter as its recorded status dictates; with either flag
set, every file survives the removal loop instead. -/
theorem reparse_skips_cached (f : GoFileInfo) (e : Parse_Config_XMLFile)
    (files : List GoFileInfo) (cache : List Parse_Config_XMLFile)
    (force wipe : Bool)
    (hfound : cacheFind cache f.name f.size = some e)
    (hstatus : e.Status = "parsed" ∨ e.Status = "split" ∨
      e.Status = "ignored/issues" ∨ e.Status = "ignored/empty")
    (hjson : strEndsWith f.name ".json" = false)
    (hfw : (force || wipe) = true) :
    f ∉ (removePreviouslyParsed false false files cache).kept ∧
    (removePreviouslyParsed false false [f] cache).kept = [] ∧
    (removePreviouslyParsed false false [f] cache).cached =
      (if e.Status = "parsed" ∨ e.Status = "split" then 1 else 0) ∧
    (removePreviouslyParsed false false [f] cache).issues =
      (if e.Status = "ignored/issues" then 1 else 0) ∧
    (removePreviouslyParsed false false [f] cache).empty =
      (if e.Status = "ignored/empty" then 1 else 0) ∧
    (removePreviouslyParsed force wipe files cache).kept = files := by
  have hsingle : removePreviouslyParsed false false [f] cache =
      skipStep false false ⟨[], cache, 0, 0, 0⟩ f := rfl
  have hstep : skipStep false false ⟨[], cache, 0, 0, 0⟩ f =
      (if e.Status = "parsed" then (⟨[], cache, 1, 0, 0⟩ : SkipState)
       else if e.Status = "split" then ⟨[], cache, 1, 0, 0⟩
       else if e.Status = "ignored/issues" then ⟨[], cache, 0, 1, 0⟩
       else ⟨[], cache, 0, 0, 1⟩) := by
    rw [skipStep]
    simp only [Bool.or_self, Bool.false_eq_true, if_false, hjson,
      InputConfig_GetXMLParseConfig, hfound]
    rcases hstatus with h | h | h | h <;> simp [h]
  have hkeepall : ∀ (fs : List GoFileInfo) (s : SkipState),
      (fs.foldl (skipStep force wipe) s).kept = s.kept ++ fs := by
    intro fs
    induction fs with
    | nil => intro s; simp
    | cons g rest ih =>
        intro s
        have hone : skipStep force wipe s g = { s with kept := s.kept ++ [g] } := by
          rw [skipStep, if_pos hfw]
        rw [List.foldl_cons, hone, ih]
        simp
  refine ⟨?_, ?_, ?_, ?_, ?_, ?_⟩
  · exact foldl_skip_drops_matched hfound hstatus hjson files ⟨[], cache, 0, 0, 0⟩
      ⟨[], by simp⟩ (by simp)
  · rw [hsingle, hstep]
    rcases hstatus with h | h | h | h <;> simp [h]
  · rw [hsingle, hstep]
    rcases hstatus with h | h | h | h <;> simp [h]
  · rw [hsingle, hstep]
    rcases hstatus with h | h | h | h <;> simp [h]
  · rw [hsingle, hstep]
    rcases hstatus with h | h | h | h <;> simp [h]
  · simpa using hkeepall files ⟨[], cache, 0, 0, 0⟩

/-- Witness for C7: a concrete cached file is removed from the work list and
counted as cached. -/
theorem reparse_skips_cached_witness :
    (⟨"host-agent-1_file.xml", 2048⟩ : GoFileInfo) ∉
      (removePreviouslyParsed false false
        [⟨"host-agent-1_file.xml", 2048⟩, ⟨"other.xml", 10⟩]
        [⟨"host-agent-1_file.xml", 2048, "parsed"⟩]).kept ∧
    (removePreviouslyParsed false false [⟨"host-agent-1_file.xml", 2048⟩]
      [⟨"host-agent-1_file.xml", 2048, "parsed"⟩]).cached = 1 := by
  have h := reparse_skips_cached ⟨"host-agent-1_file.xml", 2048⟩
    ⟨"host-agent-1_file.xml", 2048, "parsed"⟩
    [⟨"host-agent-1_file.xml", 2048⟩, ⟨"other.xml", 10⟩]
    [⟨"host-agent-1_file.xml", 2048, "parsed"⟩] true false
    (by decide) (Or.inl rfl) (by decide) (by decide)
  exact ⟨h.1, by rw [h.2.2.1]; decide⟩

/-! ### Excel-friendly cell truncation
(auditparser.go:1168-1177 and 1971-1980) -/

/-- Truncation of one rendered cell: a value longer than 32,000 characters
is cut to its first 32,000 characters with the `...` marker appended
(`csvRows[i][j] = csvRows[i][j][0:32000] + "..."`). -/
def truncCell (s : String) : String :=
  if 32000 < s.data.length then ⟨s.data.take 32000⟩ ++ "..." else s

/-- The inner cell loop of the truncation pass: Go iterates `j` from 0 up to
`len(csvRows[0])` over row `i`, truncating in place; positions at or beyond
the bound are never touched. -/
def truncRowCells (w j : Nat) : List String → List String
  | [] => []
  | c :: t => (if j < w then truncCell c else c) :: truncRowCells w (j + 1) t

/-- One row of the truncation pass.  The Go loop reads `csvRows[i][j]` for
every `j` below `len(csvRows[0])` and would panic if row `i` were shorter
than row 0; that out-of-range access is modelled by `none`. -/
def excelRowPass (w : Nat) (r : List String) : Option (List String) :=
  if r.length < w then none else some (truncRowCells w 0 r)

/-- The whole Excel-friendly truncation pass: a no-op unless the
Excel-friendly option is set, otherwise every row is processed against the
width of row 0. -/
def excelTruncateTable (excel : Bool) (rows : List (List String)) :
    Option (List (List String)) :=
  if excel then
    match rows with
    | [] => some []
    | r0 :: _ => rows.mapM (excelRowPass r0.length)
  else some rows

theorem truncRowCells_all {w j : Nat} {r : List String} (h : j + r.length ≤ w) :
    truncRowCells w j r = r.map truncCell := by
  induction r generalizing j with
  | nil => rfl
  | cons c t ih =>
      have hj : j < w := by
        simp only [List.length_cons] at h
        omega
      rw [truncRowCells, if_pos hj, List.map_cons, ih]
      simp only [List.length_cons] at h
      omega

theorem mapM_eq_map_of_some {α β : Type} (f : α → Option β) (g : α → β)
    (l : List α) (h : ∀ a ∈ l, f a = some (g a)) : l.mapM f = some (l.map g) := by
  induction l with
  | nil => rfl
  | cons a t ih =>
      rw [List.mapM_cons, h a (by simp), ih fun b hb => h b (by simp [hb])]
      rfl

/-- C8: with Excel-friendly mode enabled, every cell of a uniform-width
rendered table longer than 32,000 characters is replaced by its first
32,000 characters followed by the `...` marker and every other cell is left
unchanged; with the mode disabled no cell is touched at all. -/
theorem excel_friendly_truncation (rows : List (List String)) (s : String)
    (huni : ∀ r ∈ rows, r.length = (rows.headD []).length) :
    excelTruncateTable true rows = some (rows.map (List.map truncCell)) ∧
    excelTruncateTable false rows = some rows ∧
    (32000 < s.data.length →
      truncCell s = String.mk (s.data.take 32000) ++ "..." ∧
      (truncCell s).data.length = 32003) ∧
    (¬ 32000 < s.data.length → truncCell s = s) := by
  refine ⟨?_, rfl, ?_, ?_⟩
  · rcases rows with _ | ⟨r0, rest⟩
    · rfl
    · rw [excelTruncateTable, if_pos rfl]
      refine mapM_eq_map_of_some _ _ _ ?_
      intro r hr
      have hlen : r.length = r0.length := huni r hr
      rw [excelRowPass, if_neg (by omega), truncRowCells_all (by omega)]
  · intro hlong
    refine ⟨by rw [truncCell, if_pos hlong], ?_⟩
    rw [truncCell, if_pos hlong, String.data_append, List.length_append,
      List.length_take]
    have hmin : min 32000 s.data.length = 32000 := by omega
    rw [hmin]
    rfl
  · intro hshort
    rw [truncCell, if_neg hshort]

/-- Witness for C8: the truncation pass on a small uniform table leaves
short cells untouched. -/
theorem excel_friendly_truncation_witness :
    excelTruncateTable true [["Hostname", "Path"], ["hostA", "C:\\Users"]] =
      some ([["Hostname", "Path"], ["hostA", "C:\\Users"]].map
        (List.map truncCell)) :=
  (excel_friendly_truncation [["Hostname", "Path"], ["hostA", "C:\\Users"]] ""
    (by decide)).1

/-- Witness for C9: the checked normalizer succeeds on the empty string. -/
theorem parse_time_never_out_of_bounds_witness :
    parse_time_checked "" = some (parse_time "") :=
  parse_time_never_out_of_bounds ""

end GoAuditParser
